import Mathlib

/-!
Verification of the tcp-tunnel-proxy core against its source.

This file gives a shallow embedding of the byte-level preamble parser
(extractSNI, maybeConsumeProxyHeader, maybeHandlePostgresSSLRequest,
parseClientHelloForSNI), the hostname derivation and validation
(deriveValidatedTunnelHostname, validateHostname), the per-tunnel lifecycle
state machine of the node manager (GetOrStart, Release, launchTunnel,
handleProcessExit, stopNode), and the loopback port pool
(portPool.reserve, portPool.release).

Bytes are modelled as Fin 256; byte streams as List Byte.  Socket reads are
modelled as exact consumption from the stream; an extra parameter captures
how many bytes the buffered reader has pulled past the TLS record, since
that amount is scheduling-dependent.  Time-outs and transport errors are
not modelled: the theorems quantify over the data actually delivered.
-/

set_option maxHeartbeats 1000000

abbrev Byte := Fin 256

/-- Byte literal helper: the numeric value reduced mod 256, as in a Go byte
conversion. -/
def byte (n : Nat) : Byte := ⟨n % 256, Nat.mod_lt _ (by norm_num)⟩

theorem byte_val (n : Nat) (h : n ≤ 255) : (byte n).val = n := by
  simp [byte, Nat.mod_eq_of_lt (Nat.lt_succ_of_le h)]

/-- Big-endian 16-bit encoding of a length field, as produced byte by byte in
the Go code. -/
def be2 (n : Nat) : List Byte := [byte (n / 256), byte n]

/-- Big-endian 24-bit encoding of the handshake length field. -/
def be3 (n : Nat) : List Byte := [byte (n / 65536), byte (n / 256), byte n]

/-- Fueled form of the inner server-name-list loop of
parseClientHelloForSNI.  The Go loop runs while at least 3 bytes remain and
consumes at least 3 bytes per iteration, so any fuel of at least the list
length makes the fuel guard unreachable; exhausted fuel returns the same
loop-exit error. -/
def parseSNINameGo : Nat → List Byte → Except String (List Byte)
  | fuel + 1, t :: l1 :: l2 :: rest =>
    if l1.val * 256 + l2.val > rest.length then .error "SNI name length invalid"
    else if t.val = 0 then .ok (rest.take (l1.val * 256 + l2.val))
    else parseSNINameGo fuel (rest.drop (l1.val * 256 + l2.val))
  | _, _ => .error "SNI extension present but no host name found"

/-- The inner server-name-list loop of parseClientHelloForSNI: entries are
1 byte name_type, 2 bytes big-endian name length, then the name; the first
entry with name_type 0 is returned. -/
def parseSNIName (names : List Byte) : Except String (List Byte) :=
  parseSNINameGo names.length names

theorem parseSNINameGo_congr (f1 f2 : Nat) (names : List Byte)
    (h1 : names.length ≤ f1) (h2 : names.length ≤ f2) :
    parseSNINameGo f1 names = parseSNINameGo f2 names := by
  induction f1 generalizing f2 names with
  | zero =>
    have : names = [] := List.length_eq_zero.mp (Nat.le_zero.mp h1)
    subst this
    cases f2 <;> rfl
  | succ f ih =>
    match names, f2 with
    | [], g => cases g <;> rfl
    | [t], f2 + 1 => rfl
    | [t, l1], f2 + 1 => rfl
    | t :: l1 :: l2 :: rest, f2 + 1 =>
      rw [parseSNINameGo, parseSNINameGo]
      by_cases hl : l1.val * 256 + l2.val > rest.length
      · rw [if_pos hl, if_pos hl]
      · rw [if_neg hl, if_neg hl]
        by_cases ht : t.val = 0
        · rw [if_pos ht, if_pos ht]
        · rw [if_neg ht, if_neg ht]
          have hlen : (rest.drop (l1.val * 256 + l2.val)).length ≤ rest.length := by
            simp only [List.length_drop]
            omega
          simp only [List.length_cons] at h1 h2
          exact ih _ _ (by omega) (by omega)

theorem parseSNIName_eq (t l1 l2 : Byte) (rest : List Byte) :
    parseSNIName (t :: l1 :: l2 :: rest) =
      (if l1.val * 256 + l2.val > rest.length then .error "SNI name length invalid"
       else if t.val = 0 then .ok (rest.take (l1.val * 256 + l2.val))
       else parseSNIName (rest.drop (l1.val * 256 + l2.val))) := by
  rw [parseSNIName]
  simp only [List.length_cons]
  rw [parseSNINameGo]
  by_cases hl : l1.val * 256 + l2.val > rest.length
  · rw [if_pos hl, if_pos hl]
  · rw [if_neg hl, if_neg hl]
    by_cases ht : t.val = 0
    · rw [if_pos ht, if_pos ht]
    · rw [if_neg ht, if_neg ht, parseSNIName]
      exact parseSNINameGo_congr _ _ _ (by simp only [List.length_drop]; omega)
        (Nat.le_refl _)

/-- The server_name extension body: 2-byte list length then the name list. -/
def parseServerNameExt (extData : List Byte) : Except String (List Byte) :=
  match extData with
  | b0 :: b1 :: rest =>
    let listLen := b0.val * 256 + b1.val
    if listLen + 2 > extData.length then .error "SNI list length invalid"
    else parseSNIName (rest.take listLen)
  | _ => .error "SNI extension too short"

/-- Fueled form of the extension loop: the Go loop runs while at least 4
bytes remain and consumes at least 4 bytes per iteration, so fuel of at
least the list length is never exhausted; exhausted fuel returns the same
loop-exit error. -/
def parseExtensionsGo : Nat → List Byte → Except String (List Byte)
  | fuel + 1, t0 :: t1 :: l0 :: l1 :: rest =>
    if l0.val * 256 + l1.val > rest.length then .error "extension length overflow"
    else if t0.val * 256 + t1.val = 0 then
      parseServerNameExt (rest.take (l0.val * 256 + l1.val))
    else parseExtensionsGo fuel (rest.drop (l0.val * 256 + l1.val))
  | _, _ => .error "SNI not found in ClientHello"

/-- The extension loop of parseClientHelloForSNI: 2-byte type, 2-byte data
length, data; stops at the first extension of type 0 (server_name). -/
def parseExtensions (exts : List Byte) : Except String (List Byte) :=
  parseExtensionsGo exts.length exts

theorem parseExtensionsGo_congr (f1 f2 : Nat) (exts : List Byte)
    (h1 : exts.length ≤ f1) (h2 : exts.length ≤ f2) :
    parseExtensionsGo f1 exts = parseExtensionsGo f2 exts := by
  induction f1 generalizing f2 exts with
  | zero =>
    have : exts = [] := List.length_eq_zero.mp (Nat.le_zero.mp h1)
    subst this
    cases f2 <;> rfl
  | succ f ih =>
    match exts, f2 with
    | [], g => cases g <;> rfl
    | [t0], f2 + 1 => rfl
    | [t0, t1], f2 + 1 => rfl
    | [t0, t1, l0], f2 + 1 => rfl
    | t0 :: t1 :: l0 :: l1 :: rest, f2 + 1 =>
      rw [parseExtensionsGo, parseExtensionsGo]
      by_cases hl : l0.val * 256 + l1.val > rest.length
      · rw [if_pos hl, if_pos hl]
      · rw [if_neg hl, if_neg hl]
        by_cases ht : t0.val * 256 + t1.val = 0
        · rw [if_pos ht, if_pos ht]
        · rw [if_neg ht, if_neg ht]
          simp only [List.length_cons] at h1 h2
          exact ih _ _ (by simp only [List.length_drop]; omega)
            (by simp only [List.length_drop]; omega)

theorem parseExtensions_eq (t0 t1 l0 l1 : Byte) (rest : List Byte) :
    parseExtensions (t0 :: t1 :: l0 :: l1 :: rest) =
      (if l0.val * 256 + l1.val > rest.length then .error "extension length overflow"
       else if t0.val * 256 + t1.val = 0 then
         parseServerNameExt (rest.take (l0.val * 256 + l1.val))
       else parseExtensions (rest.drop (l0.val * 256 + l1.val))) := by
  rw [parseExtensions]
  simp only [List.length_cons]
  rw [parseExtensionsGo]
  by_cases hl : l0.val * 256 + l1.val > rest.length
  · rw [if_pos hl, if_pos hl]
  · rw [if_neg hl, if_neg hl]
    by_cases ht : t0.val * 256 + t1.val = 0
    · rw [if_pos ht, if_pos ht]
    · rw [if_neg ht, if_neg ht, parseExtensions]
      exact parseExtensionsGo_congr _ _ _ (by simp only [List.length_drop]; omega)
        (Nat.le_refl _)

/-- Extensions-length step of the ClientHello walk: 2-byte extensions
length, bounded by the remaining data; the extensions slice is passed on. -/
def parseExtBlock (rest7 : List Byte) : Except String (List Byte) :=
  match rest7 with
  | e0 :: e1 :: rest8 =>
    let extLen := e0.val * 256 + e1.val
    if extLen > rest8.length then .error "ClientHello extensions truncated"
    else parseExtensions (rest8.take extLen)
  | _ => .error "ClientHello missing extensions length"

/-- Compression-methods step: 1-byte length, skip that many bytes. -/
def parseCompBlock (rest5 : List Byte) : Except String (List Byte) :=
  match rest5 with
  | [] => .error "malformed ClientHello (compression length)"
  | compLen :: rest6 =>
    if compLen.val > rest6.length then .error "malformed ClientHello (compression methods)"
    else parseExtBlock (rest6.drop compLen.val)

/-- Cipher-suites step: 2-byte length, skip that many bytes. -/
def parseCSBlock (rest3 : List Byte) : Except String (List Byte) :=
  match rest3 with
  | c0 :: c1 :: rest4 =>
    let csLen := c0.val * 256 + c1.val
    if csLen > rest4.length then .error "malformed ClientHello (cipher suites)"
    else parseCompBlock (rest4.drop csLen)
  | _ => .error "malformed ClientHello (cipher suites length)"

/-- Session-id step: 1-byte length, skip that many bytes. -/
def parseSidBlock (rest1 : List Byte) : Except String (List Byte) :=
  match rest1 with
  | [] => .error "malformed ClientHello (session id length missing)"
  | sidLen :: rest2 =>
    if sidLen.val > rest2.length then .error "malformed ClientHello (session id)"
    else parseCSBlock (rest2.drop sidLen.val)

/-- The fixed-layout walk of the ClientHello body after the 4-byte handshake
header: version, random, session id, cipher suites, compression methods,
extensions.  Offsets of the Go code are rendered as drops from the list;
each helper above is one paragraph of the Go function. -/
def parseHelloBody (data : List Byte) : Except String (List Byte) :=
  if data.length < 34 then .error "ClientHello too short"
  else parseSidBlock (data.drop 34)

/-- Embedding of parseClientHelloForSNI: record is the TLS record payload;
the 4-byte handshake header is checked, the declared handshake length bounds
the data (trailing bytes beyond it are ignored), then the body is walked. -/
def parseClientHelloForSNI (record : List Byte) : Except String (List Byte) :=
  match record with
  | b0 :: b1 :: b2 :: b3 :: rest =>
    if b0.val ≠ 1 then .error "first handshake message is not ClientHello"
    else
      let handshakeLen := b1.val * 65536 + b2.val * 256 + b3.val
      if handshakeLen + 4 > record.length then .error "truncated ClientHello"
      else parseHelloBody (rest.take handshakeLen)
  | _ => .error "TLS record too short for handshake"

/-! ### Well-formed ClientHello builder

The family of records quantified over in the SNI claims: an arbitrary
2-byte version, 32-byte random, session id, cipher-suite block, compression
block and extension block, serialized exactly as parseClientHelloForSNI
expects to walk them, with arbitrary trailing bytes after the declared
handshake length (the parser tolerates and ignores them). -/

/-- Encoding of one TLS extension: 2-byte type, 2-byte length, data. -/
def encodeExt (t : Nat) (d : List Byte) : List Byte := be2 t ++ (be2 d.length ++ d)

/-- Encoding of a list of extensions, concatenated. -/
def encodeExts (l : List (Nat × List Byte)) : List Byte :=
  (l.map (fun td => encodeExt td.1 td.2)).flatten

/-- Encoding of one server-name-list entry: name_type, 2-byte length, name. -/
def encodeName (t : Nat) (nm : List Byte) : List Byte := byte t :: (be2 nm.length ++ nm)

/-- Encoding of a list of server-name entries, concatenated. -/
def encodeNames (l : List (Nat × List Byte)) : List Byte :=
  (l.map (fun p => encodeName p.1 p.2)).flatten

/-- Data of a server_name extension: 2-byte list length then the entries. -/
def serverNameExtData (names : List Byte) : List Byte := be2 names.length ++ names

/-- The ClientHello body laid out field by field. -/
def mkHelloBody (ver rand sid cs comp exts : List Byte) : List Byte :=
  ver ++ (rand ++ (byte sid.length :: (sid ++ (be2 cs.length ++ (cs ++
    (byte comp.length :: (comp ++ (be2 exts.length ++ exts))))))))

/-- A full ClientHello record payload: handshake type 1, 3-byte length,
body, then any trailing bytes beyond the declared handshake length. -/
def mkClientHello (ver rand sid cs comp exts trailing : List Byte) : List Byte :=
  byte 1 :: (be3 (mkHelloBody ver rand sid cs comp exts).length ++
    (mkHelloBody ver rand sid cs comp exts ++ trailing))

theorem byte_val_mod (n : Nat) : (byte n).val = n % 256 := rfl

theorem be2_decode (n : Nat) (h : n ≤ 65535) :
    (byte (n / 256)).val * 256 + (byte n).val = n := by
  simp only [byte_val_mod]
  omega

theorem be3_decode (n : Nat) (h : n ≤ 16777215) :
    (byte (n / 65536)).val * 65536 + ((byte (n / 256)).val * 256 + (byte n).val) = n := by
  simp only [byte_val_mod]
  omega

theorem parseClientHelloForSNI_mk (ver rand sid cs comp exts trailing : List Byte)
    (h : (mkHelloBody ver rand sid cs comp exts).length ≤ 16777215) :
    parseClientHelloForSNI (mkClientHello ver rand sid cs comp exts trailing) =
      parseHelloBody (mkHelloBody ver rand sid cs comp exts) := by
  have key : ∀ L : Nat, L ≤ 16777215 →
      L / 65536 % 256 * 65536 + L / 256 % 256 * 256 + L % 256 = L := by
    intro L hL
    omega
  simp only [mkClientHello, be3, parseClientHelloForSNI, byte_val_mod, List.cons_append,
    List.nil_append]
  rw [key (mkHelloBody ver rand sid cs comp exts).length h]
  simp only [List.length_cons, List.length_append]
  rw [if_neg (by omega), if_neg (by omega)]
  congr 1
  exact List.take_left' rfl

theorem parseHelloBody_mk (ver rand sid cs comp exts : List Byte)
    (hv : ver.length = 2) (hr : rand.length = 32) (hs : sid.length ≤ 255)
    (hc : cs.length ≤ 65535) (hm : comp.length ≤ 255) (he : exts.length ≤ 65535) :
    parseHelloBody (mkHelloBody ver rand sid cs comp exts) = parseExtensions exts := by
  have h34 : (ver ++ rand).length = 34 := by simp [hv, hr]
  have hdrop : (mkHelloBody ver rand sid cs comp exts).drop 34 =
      byte sid.length :: (sid ++ (be2 cs.length ++ (cs ++
        (byte comp.length :: (comp ++ (be2 exts.length ++ exts)))))) := by
    rw [mkHelloBody, ← List.append_assoc]
    exact List.drop_left' h34
  have hlen : ¬ ((mkHelloBody ver rand sid cs comp exts).length < 34) := by
    simp only [mkHelloBody, List.length_append, List.length_cons]
    omega
  rw [parseHelloBody, if_neg hlen, hdrop, parseSidBlock]
  rw [if_neg (by rw [byte_val _ hs]; simp only [List.length_append]; omega)]
  rw [byte_val _ hs, List.drop_left, be2, List.cons_append, List.cons_append, List.nil_append,
    parseCSBlock]
  rw [if_neg (by rw [be2_decode _ hc]; simp only [List.length_append]; omega)]
  rw [be2_decode _ hc, List.drop_left, parseCompBlock]
  rw [if_neg (by rw [byte_val _ hm]; simp only [List.length_append]; omega)]
  rw [byte_val _ hm, List.drop_left, be2, List.cons_append, List.cons_append, List.nil_append,
    parseExtBlock]
  rw [if_neg (by rw [be2_decode _ he]; omega)]
  rw [be2_decode _ he, List.take_length]

theorem parseExtensions_skip (t : Nat) (d rest : List Byte) (ht1 : 1 ≤ t) (ht2 : t ≤ 65535)
    (hd : d.length ≤ 65535) :
    parseExtensions (encodeExt t d ++ rest) = parseExtensions rest := by
  have : encodeExt t d ++ rest =
      byte (t / 256) :: byte t :: byte (d.length / 256) :: byte d.length :: (d ++ rest) := by
    simp [encodeExt, be2]
  rw [this, parseExtensions_eq]
  rw [if_neg (by rw [be2_decode _ hd]; simp only [List.length_append]; omega)]
  rw [if_neg (by rw [be2_decode _ ht2]; omega), be2_decode _ hd, List.drop_left]

theorem parseExtensions_encodeExts (l : List (Nat × List Byte)) (rest : List Byte)
    (hwf : ∀ p ∈ l, 1 ≤ p.1 ∧ p.1 ≤ 65535 ∧ p.2.length ≤ 65535) :
    parseExtensions (encodeExts l ++ rest) = parseExtensions rest := by
  induction l with
  | nil => rw [encodeExts]; simp
  | cons hd tl ih =>
    have hhd := hwf hd (by simp)
    rw [encodeExts, List.map_cons, List.flatten_cons, List.append_assoc]
    rw [parseExtensions_skip hd.1 hd.2 _ hhd.1 hhd.2.1 hhd.2.2]
    exact ih (fun p hp => hwf p (List.mem_cons_of_mem _ hp))

theorem parseExtensions_sni (d rest : List Byte) (hd : d.length ≤ 65535) :
    parseExtensions (encodeExt 0 d ++ rest) = parseServerNameExt d := by
  have : encodeExt 0 d ++ rest =
      byte (0 / 256) :: byte 0 :: byte (d.length / 256) :: byte d.length :: (d ++ rest) := by
    simp [encodeExt, be2]
  rw [this, parseExtensions_eq]
  rw [if_neg (by rw [be2_decode _ hd]; simp only [List.length_append]; omega)]
  rw [if_pos (by rw [be2_decode 0 (by norm_num)]), be2_decode _ hd, List.take_left]

theorem parseServerNameExt_mk (names : List Byte) (h : names.length ≤ 65535) :
    parseServerNameExt (serverNameExtData names) = parseSNIName names := by
  have : serverNameExtData names =
      byte (names.length / 256) :: byte names.length :: names := by
    simp [serverNameExtData, be2]
  rw [this, parseServerNameExt]
  rw [if_neg (by rw [be2_decode _ h]; simp only [List.length_cons]; omega),
    be2_decode _ h, List.take_length]

theorem parseSNIName_skip (t : Nat) (nm rest : List Byte) (ht1 : 1 ≤ t) (ht2 : t ≤ 255)
    (hn : nm.length ≤ 65535) :
    parseSNIName (encodeName t nm ++ rest) = parseSNIName rest := by
  have : encodeName t nm ++ rest =
      byte t :: byte (nm.length / 256) :: byte nm.length :: (nm ++ rest) := by
    simp [encodeName, be2]
  rw [this, parseSNIName_eq]
  rw [if_neg (by rw [be2_decode _ hn]; simp only [List.length_append]; omega)]
  rw [if_neg (by rw [byte_val _ ht2]; omega), be2_decode _ hn, List.drop_left]

theorem parseSNIName_hit (nm rest : List Byte) (hn : nm.length ≤ 65535) :
    parseSNIName (encodeName 0 nm ++ rest) = .ok nm := by
  have : encodeName 0 nm ++ rest =
      byte 0 :: byte (nm.length / 256) :: byte nm.length :: (nm ++ rest) := by
    simp [encodeName, be2]
  rw [this, parseSNIName_eq]
  rw [if_neg (by rw [be2_decode _ hn]; simp only [List.length_append]; omega)]
  rw [if_pos (by rw [byte_val 0 (by norm_num)]), be2_decode _ hn, List.take_left]

theorem parseSNIName_encodeNames (l : List (Nat × List Byte)) (rest : List Byte)
    (hwf : ∀ p ∈ l, 1 ≤ p.1 ∧ p.1 ≤ 255 ∧ p.2.length ≤ 65535) :
    parseSNIName (encodeNames l ++ rest) = parseSNIName rest := by
  induction l with
  | nil => rw [encodeNames]; simp
  | cons hd tl ih =>
    have hhd := hwf hd (by simp)
    rw [encodeNames, List.map_cons, List.flatten_cons, List.append_assoc]
    rw [parseSNIName_skip hd.1 hd.2 _ hhd.1 hhd.2.1 hhd.2.2]
    exact ih (fun p hp => hwf p (List.mem_cons_of_mem _ hp))

/-- Data of a server_name extension holding some leading non-host_name
entries, then the host_name entry, then arbitrary further entry bytes. -/
def sniExtData (preNames : List (Nat × List Byte)) (name namesPost : List Byte) : List Byte :=
  serverNameExtData (encodeNames preNames ++ (encodeName 0 name ++ namesPost))

theorem mkHelloBody_length_le (ver rand sid cs comp exts : List Byte)
    (hv : ver.length = 2) (hr : rand.length = 32) (hs : sid.length ≤ 255)
    (hc : cs.length ≤ 65535) (hm : comp.length ≤ 255) (he : exts.length ≤ 65535) :
    (mkHelloBody ver rand sid cs comp exts).length ≤ 16777215 := by
  simp only [mkHelloBody, List.length_append, List.length_cons, be2, List.length_nil]
  omega

/-- CLAIM C1. For every well-formed ClientHello whose server_name extension
carries a first host_name entry of length 1..255, parseClientHelloForSNI
returns exactly that byte sequence; if the server_name extension is present
but holds no host_name entry, or the extensions exhaust without a
server_name extension, it returns an error. -/
theorem C1_parse_client_hello_sni :
    (∀ (ver rand sid cs comp trailing : List Byte) (pre preNames : List (Nat × List Byte))
       (name namesPost extPost : List Byte),
      ver.length = 2 → rand.length = 32 → sid.length ≤ 255 → cs.length ≤ 65535 →
      comp.length ≤ 255 →
      (∀ p ∈ pre, 1 ≤ p.1 ∧ p.1 ≤ 65535 ∧ p.2.length ≤ 65535) →
      (∀ p ∈ preNames, 1 ≤ p.1 ∧ p.1 ≤ 255 ∧ p.2.length ≤ 65535) →
      1 ≤ name.length → name.length ≤ 255 →
      (encodeNames preNames ++ (encodeName 0 name ++ namesPost)).length ≤ 65533 →
      (encodeExts pre ++ (encodeExt 0 (sniExtData preNames name namesPost) ++ extPost)).length
        ≤ 65535 →
      parseClientHelloForSNI (mkClientHello ver rand sid cs comp
        (encodeExts pre ++ (encodeExt 0 (sniExtData preNames name namesPost) ++ extPost))
        trailing) = .ok name) ∧
    (∀ (ver rand sid cs comp trailing : List Byte) (pre entries : List (Nat × List Byte))
       (extPost : List Byte),
      ver.length = 2 → rand.length = 32 → sid.length ≤ 255 → cs.length ≤ 65535 →
      comp.length ≤ 255 →
      (∀ p ∈ pre, 1 ≤ p.1 ∧ p.1 ≤ 65535 ∧ p.2.length ≤ 65535) →
      (∀ p ∈ entries, 1 ≤ p.1 ∧ p.1 ≤ 255 ∧ p.2.length ≤ 65535) →
      (encodeNames entries).length ≤ 65533 →
      (encodeExts pre ++ (encodeExt 0 (serverNameExtData (encodeNames entries)) ++ extPost)).length
        ≤ 65535 →
      parseClientHelloForSNI (mkClientHello ver rand sid cs comp
        (encodeExts pre ++ (encodeExt 0 (serverNameExtData (encodeNames entries)) ++ extPost))
        trailing) = .error "SNI extension present but no host name found") ∧
    (∀ (ver rand sid cs comp trailing : List Byte) (pre : List (Nat × List Byte)),
      ver.length = 2 → rand.length = 32 → sid.length ≤ 255 → cs.length ≤ 65535 →
      comp.length ≤ 255 →
      (∀ p ∈ pre, 1 ≤ p.1 ∧ p.1 ≤ 65535 ∧ p.2.length ≤ 65535) →
      (encodeExts pre).length ≤ 65535 →
      parseClientHelloForSNI (mkClientHello ver rand sid cs comp (encodeExts pre) trailing) =
        .error "SNI not found in ClientHello") := by
  refine ⟨?_, ?_, ?_⟩
  · intro ver rand sid cs comp trailing pre preNames name namesPost extPost hv hr hs hc hm
      hpre hpn hn1 hn2 hnames hexts
    rw [parseClientHelloForSNI_mk _ _ _ _ _ _ _
      (mkHelloBody_length_le _ _ _ _ _ _ hv hr hs hc hm hexts)]
    rw [parseHelloBody_mk _ _ _ _ _ _ hv hr hs hc hm hexts]
    rw [parseExtensions_encodeExts _ _ hpre]
    rw [parseExtensions_sni _ _
      (by simp only [sniExtData, serverNameExtData, be2, List.length_append, List.length_cons,
        List.length_nil] at hnames ⊢; omega)]
    rw [sniExtData, parseServerNameExt_mk _
      (by simp only [List.length_append] at hnames ⊢; omega)]
    rw [parseSNIName_encodeNames _ _ hpn]
    rw [parseSNIName_hit _ _ (by omega)]
  · intro ver rand sid cs comp trailing pre entries extPost hv hr hs hc hm hpre hent hnames hexts
    rw [parseClientHelloForSNI_mk _ _ _ _ _ _ _
      (mkHelloBody_length_le _ _ _ _ _ _ hv hr hs hc hm hexts)]
    rw [parseHelloBody_mk _ _ _ _ _ _ hv hr hs hc hm hexts]
    rw [parseExtensions_encodeExts _ _ hpre]
    rw [parseExtensions_sni _ _
      (by simp only [serverNameExtData, be2, List.length_append, List.length_cons,
        List.length_nil]; omega)]
    rw [parseServerNameExt_mk _ (by omega)]
    rw [show encodeNames entries = encodeNames entries ++ [] from (List.append_nil _).symm]
    rw [parseSNIName_encodeNames _ _ hent]
    rfl
  · intro ver rand sid cs comp trailing pre hv hr hs hc hm hpre hexts
    rw [parseClientHelloForSNI_mk _ _ _ _ _ _ _
      (mkHelloBody_length_le _ _ _ _ _ _ hv hr hs hc hm hexts)]
    rw [parseHelloBody_mk _ _ _ _ _ _ hv hr hs hc hm hexts]
    rw [show encodeExts pre = encodeExts pre ++ [] from (List.append_nil _).symm]
    rw [parseExtensions_encodeExts _ _ hpre]
    rfl

/-- Witness for C1: a concrete minimal ClientHello with SNI "a", one with a
server_name extension holding only a non-host_name entry, and one with no
server_name extension at all. -/
theorem C1_parse_client_hello_sni_witness :
    parseClientHelloForSNI (mkClientHello [byte 3, byte 3] (List.replicate 32 (byte 1)) [] [] []
      (encodeExts [] ++ (encodeExt 0 (sniExtData [] [byte 97] []) ++ [])) []) = .ok [byte 97] ∧
    parseClientHelloForSNI (mkClientHello [byte 3, byte 3] (List.replicate 32 (byte 1)) [] [] []
      (encodeExts [] ++ (encodeExt 0 (serverNameExtData (encodeNames [(1, [byte 98])])) ++ []))
      []) = .error "SNI extension present but no host name found" ∧
    parseClientHelloForSNI (mkClientHello [byte 3, byte 3] (List.replicate 32 (byte 1)) [] [] []
      (encodeExts [(10, [byte 7])]) []) = .error "SNI not found in ClientHello" :=
  ⟨C1_parse_client_hello_sni.1 [byte 3, byte 3] (List.replicate 32 (byte 1)) [] [] [] [] [] []
      [byte 97] [] [] (by decide) (by decide) (by decide) (by decide) (by decide)
      (by intro p hp; simp at hp) (by intro p hp; simp at hp) (by decide) (by decide)
      (by decide) (by decide),
   C1_parse_client_hello_sni.2.1 [byte 3, byte 3] (List.replicate 32 (byte 1)) [] [] [] [] []
      [(1, [byte 98])] [] (by decide) (by decide) (by decide) (by decide) (by decide)
      (by intro p hp; simp at hp)
      (by intro p hp; simp at hp; rw [hp]; refine ⟨by norm_num, by norm_num, by decide⟩)
      (by decide) (by decide),
   C1_parse_client_hello_sni.2.2 [byte 3, byte 3] (List.replicate 32 (byte 1)) [] [] [] []
      [(10, [byte 7])] (by decide) (by decide) (by decide) (by decide) (by decide)
      (by intro p hp; simp at hp; rw [hp]; refine ⟨by norm_num, by norm_num, by decide⟩)
      (by decide)⟩

/-! ### Byte-stream model of the preamble reader

The socket plus bufio.Reader pair is modelled as a list of bytes delivered
in order.  Peek inspects a leading segment without consuming; ReadFull and
ReadString consume exactly the bytes they return.  The amount the buffered
reader has pulled past the TLS record when the drain step runs is
scheduling-dependent, so it is an explicit parameter of extractSNI and the
theorems hold for every value of it.  I/O deadlines and transport failures
are outside the model; the branches of the Go code that tolerate a timeout
at a peek are the branches that proceed without consumption here. -/

/-- ASCII bytes of the PROXY v1 signature "PROXY ". -/
def proxyV1Bytes : List Byte := [byte 0x50, byte 0x52, byte 0x4F, byte 0x58, byte 0x59, byte 0x20]

/-- The 12-byte PROXY protocol v2 signature. -/
def proxyV2Sig : List Byte :=
  [byte 0x0d, byte 0x0a, byte 0x0d, byte 0x0a, byte 0x00, byte 0x0d,
   byte 0x0a, byte 0x51, byte 0x55, byte 0x49, byte 0x54, byte 0x0a]

/-- Model of bufio ReadString reading through the first LF: returns the
line including its terminator and the remaining stream, or none when the
stream ends without an LF. -/
def readThroughLF (input : List Byte) : Option (List Byte × List Byte) :=
  match input with
  | [] => none
  | c :: rest =>
    if c = byte 10 then some ([c], rest)
    else
      match readThroughLF rest with
      | none => none
      | some (line, r) => some (c :: line, r)

/-- Address-block length declared at bytes 14-15 of a PROXY v2 header. -/
def v2AddrLen (input : List Byte) : Nat :=
  ((input.take 16).getD 14 (byte 0)).val * 256 + ((input.take 16).getD 15 (byte 0)).val

/-- Embedding of maybeConsumeProxyHeader: peek 12 bytes; a stream starting
with the ASCII text PROXY-space is a v1 header (one LF-terminated line of at
most 107 bytes); a stream starting with the 12-byte v2 signature is a
binary header (16 fixed bytes plus the declared address block); anything
else is left untouched.  Returns the consumed bytes and the remainder. -/
def maybeConsumeProxyHeader (input : List Byte) :
    Except String (List Byte × List Byte) :=
  if (input.take 12).take 6 = proxyV1Bytes then
    match readThroughLF input with
    | none => .error "read proxy v1 header"
    | some (line, r) =>
      if line.length > 107 then .error "proxy v1 header too long"
      else .ok (line, r)
  else if input.take 12 = proxyV2Sig then
    if input.length < 16 then .error "read proxy v2 header"
    else if (input.drop 16).length < v2AddrLen input then .error "read proxy v2 address block"
    else .ok (input.take (16 + v2AddrLen input), input.drop (16 + v2AddrLen input))
  else .ok ([], input)

/-- The 8 bytes of a PostgreSQL SSLRequest: big-endian length 8 then the
magic 80877103. -/
def pgSSLRequestBytes : List Byte :=
  [byte 0, byte 0, byte 0, byte 8, byte 0x04, byte 0xD2, byte 0x16, byte 0x2F]

/-- Big-endian 32-bit value read at an offset of a byte list, as
binary.BigEndian.Uint32 does on a peeked slice. -/
def be32at (l : List Byte) (i : Nat) : Nat :=
  (l.getD i (byte 0)).val * 16777216 + (l.getD (i + 1) (byte 0)).val * 65536 +
    (l.getD (i + 2) (byte 0)).val * 256 + (l.getD (i + 3) (byte 0)).val

/-- Embedding of maybeHandlePostgresSSLRequest: peek 8 bytes and decode the
big-endian length and magic; on an exact match consume the 8 bytes and send
the single acceptance byte S back to the client.  Result fields: detection
flag, consumed bytes, bytes written to the client, remaining stream.  The
Go error paths are transport failures, which the pure model cannot hit. -/
def maybeHandlePostgresSSLRequest (input : List Byte) :
    Bool × List Byte × List Byte × List Byte :=
  if input.length < 8 then (false, [], [], input)
  else if be32at (input.take 8) 0 ≠ 8 ∨ be32at (input.take 8) 4 ≠ 80877103 then
    (false, [], [], input)
  else (true, input.take 8, [byte 0x53], input.drop 8)

/-- Successful result of extractSNI: the SNI bytes, the prelude buffer, the
tlsInitial buffer, and the bytes of the stream left unconsumed. -/
structure SNIOk where
  sni : List Byte
  preludeBytes : List Byte
  tlsInitial : List Byte
  rest : List Byte
deriving DecidableEq

/-- Full outcome of extractSNI including the detection flag and the bytes
written back to the client while parsing (the acceptance byte S). -/
structure ExtractOut where
  outcome : Except String SNIOk
  sawPg : Bool
  sent : List Byte

/-- Record length declared in a 5-byte TLS record header: big-endian over
header bytes 3 and 4. -/
def recLenOf (r2 : List Byte) : Nat :=
  ((r2.take 5).getD 3 (byte 0)).val * 256 + ((r2.take 5).getD 4 (byte 0)).val

/-- TLS stage of extractSNI, after the PROXY and PostgreSQL stages: 5-byte
record header with content type 0x16, record length in (0, 32768], body of
exactly that length, ClientHello parse, empty-SNI rejection, then the drain
of the buffered bytes pulled past the record. -/
def extractTLS (preAll : List Byte) (saw : Bool) (pgSent : List Byte) (r2 : List Byte)
    (buffered : Nat) : ExtractOut :=
  if r2.length < 5 then ⟨.error "reading TLS header", saw, pgSent⟩
  else if ((r2.take 5).getD 0 (byte 0)).val ≠ 0x16 then
    ⟨.error "not a TLS handshake record", saw, pgSent⟩
  else if recLenOf r2 ≤ 0 ∨ recLenOf r2 > 32768 then
    ⟨.error "invalid TLS record length", saw, pgSent⟩
  else if (r2.drop 5).length < recLenOf r2 then ⟨.error "reading TLS body", saw, pgSent⟩
  else
    match parseClientHelloForSNI ((r2.drop 5).take (recLenOf r2)) with
    | .error e => ⟨.error e, saw, pgSent⟩
    | .ok sni =>
      if sni = [] then ⟨.error "no SNI present", saw, pgSent⟩
      else
        ⟨.ok ⟨sni, preAll,
            (r2.take 5 ++ (r2.drop 5).take (recLenOf r2)) ++
              ((r2.drop 5).drop (recLenOf r2)).take buffered,
            ((r2.drop 5).drop (recLenOf r2)).drop buffered⟩,
          saw, pgSent⟩

/-- Embedding of extractSNI: PROXY header stage, PostgreSQL SSLRequest
stage (whose consumed bytes join the prelude), then the TLS stage. -/
def extractSNI (input : List Byte) (buffered : Nat) : ExtractOut :=
  match maybeConsumeProxyHeader input with
  | .error e => ⟨.error e, false, []⟩
  | .ok (preB, r1) =>
    extractTLS (preB ++ (maybeHandlePostgresSSLRequest r1).2.1)
      (maybeHandlePostgresSSLRequest r1).1
      (maybeHandlePostgresSSLRequest r1).2.2.1
      (maybeHandlePostgresSSLRequest r1).2.2.2 buffered

theorem readThroughLF_append (input line r : List Byte)
    (h : readThroughLF input = some (line, r)) : line ++ r = input := by
  induction input generalizing line r with
  | nil => simp [readThroughLF] at h
  | cons c rest ih =>
    rw [readThroughLF] at h
    by_cases hc : c = byte 10
    · rw [if_pos hc] at h
      cases h
      rfl
    · rw [if_neg hc] at h
      cases hrec : readThroughLF rest with
      | none => rw [hrec] at h; cases h
      | some p =>
        rw [hrec] at h
        cases p with
        | mk l2 r2 =>
          simp only [Option.some.injEq, Prod.mk.injEq] at h
          rw [← h.1, ← h.2]
          simpa using ih l2 r2 hrec

theorem maybeConsumeProxyHeader_append (input p r : List Byte)
    (h : maybeConsumeProxyHeader input = .ok (p, r)) : p ++ r = input := by
  rw [maybeConsumeProxyHeader] at h
  by_cases h1 : (input.take 12).take 6 = proxyV1Bytes
  · rw [if_pos h1] at h
    cases hline : readThroughLF input with
    | none => rw [hline] at h; cases h
    | some pr =>
      obtain ⟨line, rr⟩ := pr
      rw [hline] at h
      dsimp only [] at h
      by_cases hlen : line.length > 107
      · rw [if_pos hlen] at h; cases h
      · rw [if_neg hlen] at h
        simp only [Except.ok.injEq, Prod.mk.injEq] at h
        rw [← h.1, ← h.2]
        exact readThroughLF_append _ _ _ hline
  · rw [if_neg h1] at h
    by_cases h2 : input.take 12 = proxyV2Sig
    · rw [if_pos h2] at h
      by_cases h16 : input.length < 16
      · rw [if_pos h16] at h; cases h
      · rw [if_neg h16] at h
        by_cases haddr : (input.drop 16).length < v2AddrLen input
        · rw [if_pos haddr] at h; cases h
        · rw [if_neg haddr] at h
          simp only [Except.ok.injEq, Prod.mk.injEq] at h
          rw [← h.1, ← h.2]
          exact List.take_append_drop _ _
    · rw [if_neg h2] at h
      simp only [Except.ok.injEq, Prod.mk.injEq] at h
      rw [← h.1, ← h.2]
      rfl

theorem maybeHandlePostgresSSLRequest_append (input : List Byte) :
    (maybeHandlePostgresSSLRequest input).2.1 ++ (maybeHandlePostgresSSLRequest input).2.2.2 =
      input := by
  rw [maybeHandlePostgresSSLRequest]
  split
  · rfl
  · split
    · rfl
    · exact List.take_append_drop _ _

/-- CLAIM C2. For every client stream on which extractSNI succeeds, the
prelude and tlsInitial buffers concatenated with the unconsumed remainder
reproduce the input stream exactly: nothing consumed is lost, duplicated or
rewritten, and the acceptance byte S is output only. -/
theorem C2_replay_fidelity (input : List Byte) (buffered : Nat) (r : SNIOk)
    (h : (extractSNI input buffered).outcome = .ok r) :
    r.preludeBytes ++ (r.tlsInitial ++ r.rest) = input := by
  rw [extractSNI] at h
  cases hpx : maybeConsumeProxyHeader input with
  | error e => rw [hpx] at h; cases h
  | ok pr =>
    obtain ⟨preB, r1⟩ := pr
    rw [hpx] at h
    dsimp only [] at h
    have e1 : preB ++ r1 = input := maybeConsumeProxyHeader_append _ _ _ hpx
    have e2 : (maybeHandlePostgresSSLRequest r1).2.1 ++
        (maybeHandlePostgresSSLRequest r1).2.2.2 = r1 :=
      maybeHandlePostgresSSLRequest_append r1
    rw [extractTLS] at h
    split at h
    · cases h
    · split at h
      · cases h
      · split at h
        · cases h
        · split at h
          · cases h
          · split at h
            · cases h
            · rename_i sni hparse
              split at h
              · cases h
              · simp only [Except.ok.injEq] at h
                rw [← h]
                simp only [List.append_assoc]
                rw [List.take_append_drop, List.take_append_drop, List.take_append_drop, e2, e1]

/-- Concrete minimal ClientHello record with SNI byte 97 used as witness
input. -/
def c2Record : List Byte :=
  mkClientHello [byte 3, byte 3] (List.replicate 32 (byte 1)) [] [] []
    (encodeExts [] ++ (encodeExt 0 (sniExtData [] [byte 97] []) ++ [])) []

/-- Concrete client stream: TLS record header then the record. -/
def c2Input : List Byte := byte 0x16 :: byte 3 :: byte 3 :: (be2 c2Record.length ++ c2Record)

/-- Witness for C2: on the concrete stream the parser succeeds and the
buffers concatenate back to the stream. -/
theorem C2_replay_fidelity_witness :
    (extractSNI c2Input 0).outcome = .ok ⟨[byte 97], [], c2Input, []⟩ ∧
    ([] : List Byte) ++ (c2Input ++ []) = c2Input :=
  ⟨by rfl, C2_replay_fidelity c2Input 0 ⟨[byte 97], [], c2Input, []⟩ (by rfl)⟩

/-- CLAIM C4. maybeHandlePostgresSSLRequest detects a PostgreSQL SSLRequest
exactly when the next 8 bytes are 00 00 00 08 04 D2 16 2F; on a match it
consumes those 8 bytes verbatim into the prelude, writes the single byte S
to the client once, and reports true; otherwise it consumes nothing, writes
nothing, and reports false without error. -/
theorem C4_pg_sslrequest :
    (∀ input : List Byte, input.take 8 = pgSSLRequestBytes →
      maybeHandlePostgresSSLRequest input = (true, pgSSLRequestBytes, [byte 0x53], input.drop 8)) ∧
    (∀ input : List Byte, input.take 8 ≠ pgSSLRequestBytes →
      maybeHandlePostgresSSLRequest input = (false, [], [], input)) := by
  constructor
  · intro input h
    have hlen : ¬ (input.length < 8) := by
      have := congrArg List.length h
      simp only [List.length_take, pgSSLRequestBytes] at this
      simp at this
      omega
    rw [maybeHandlePostgresSSLRequest, if_neg hlen, h]
    rw [if_neg (by decide)]
  · intro input hne
    rw [maybeHandlePostgresSSLRequest]
    split
    · rfl
    · rename_i hlen
      rw [if_pos]
      by_contra hc
      push_neg at hc
      rcases input with _ | ⟨b0, _ | ⟨b1, _ | ⟨b2, _ | ⟨b3, _ | ⟨b4, _ | ⟨b5, _ | ⟨b6, _ | ⟨b7, rest⟩⟩⟩⟩⟩⟩⟩⟩ <;>
        simp only [List.length_cons, List.length_nil] at hlen <;> try omega
      have htake : (b0 :: b1 :: b2 :: b3 :: b4 :: b5 :: b6 :: b7 :: rest).take 8 =
          [b0, b1, b2, b3, b4, b5, b6, b7] := rfl
      rw [htake] at hc
      have hA : be32at [b0, b1, b2, b3, b4, b5, b6, b7] 0 =
          b0.val * 16777216 + b1.val * 65536 + b2.val * 256 + b3.val := rfl
      have hB : be32at [b0, b1, b2, b3, b4, b5, b6, b7] 4 =
          b4.val * 16777216 + b5.val * 65536 + b6.val * 256 + b7.val := rfl
      rw [hA, hB] at hc
      have h3 := b3.isLt
      have h4 := b4.isLt
      have h5 := b5.isLt
      have h6 := b6.isLt
      have h7 := b7.isLt
      apply hne
      rw [htake]
      have e0 : b0 = byte 0 := Fin.ext (by simp [byte]; omega)
      have e1 : b1 = byte 0 := Fin.ext (by simp [byte]; omega)
      have e2 : b2 = byte 0 := Fin.ext (by simp [byte]; omega)
      have e3 : b3 = byte 8 := Fin.ext (by simp [byte]; omega)
      have e4 : b4 = byte 4 := Fin.ext (by simp [byte]; omega)
      have e5 : b5 = byte 0xD2 := Fin.ext (by simp [byte]; omega)
      have e6 : b6 = byte 0x16 := Fin.ext (by simp [byte]; omega)
      have e7 : b7 = byte 0x2F := Fin.ext (by simp [byte]; omega)
      rw [e0, e1, e2, e3, e4, e5, e6, e7]
      rfl

/-- Witness for C4: the exact SSLRequest followed by one byte is consumed
and answered with S; a non-matching stream is left untouched. -/
theorem C4_pg_sslrequest_witness :
    maybeHandlePostgresSSLRequest (pgSSLRequestBytes ++ [byte 1]) =
      (true, pgSSLRequestBytes, [byte 0x53], [byte 1]) ∧
    maybeHandlePostgresSSLRequest [byte 0] = (false, [], [], [byte 0]) :=
  ⟨C4_pg_sslrequest.1 (pgSSLRequestBytes ++ [byte 1]) rfl,
   C4_pg_sslrequest.2 [byte 0] (by decide)⟩

/-- CLAIM C8 (amended). For a client stream that begins with the ASCII text
PROXY-space and contains an LF, maybeConsumeProxyHeader reads exactly one
line through the first LF; the line is accepted and consumed verbatim when
its full length, terminator included, is at most 107 bytes, and rejected
with an error exactly when it exceeds 107 bytes. -/
theorem C8_proxy_v1_line_limit (input line r : List Byte)
    (h6 : input.take 6 = proxyV1Bytes) (hline : readThroughLF input = some (line, r)) :
    (line.length ≤ 107 → maybeConsumeProxyHeader input = .ok (line, r)) ∧
    (line.length > 107 → maybeConsumeProxyHeader input = .error "proxy v1 header too long") := by
  have hsig : (input.take 12).take 6 = proxyV1Bytes := by
    rw [List.take_take]
    simpa using h6
  constructor <;> intro hlen
  · rw [maybeConsumeProxyHeader, if_pos hsig, hline]
    dsimp only []
    rw [if_neg (by omega)]
  · rw [maybeConsumeProxyHeader, if_pos hsig, hline]
    dsimp only []
    rw [if_pos (by omega)]

/-- Concrete 108-byte PROXY v1 line: the text PROXY-space, 100 bytes of
payload, then CR LF. -/
def c8LongLine : List Byte := proxyV1Bytes ++ (List.replicate 100 (byte 65) ++ [byte 13, byte 10])

/-- Counterexample for C8 as stated: the claim calls the 107-byte limit and
the section-6 statement of up to 108 bytes total the same limit, but a line
of exactly 108 bytes, terminator included, is rejected by the code. -/
theorem C8_proxy_v1_line_limit_counterexample :
    c8LongLine.length = 108 ∧
    maybeConsumeProxyHeader c8LongLine = .error "proxy v1 header too long" := by
  constructor
  · rfl
  · rfl

/-- Witness for C8: a minimal 7-byte PROXY line is consumed verbatim. -/
theorem C8_proxy_v1_line_limit_witness :
    maybeConsumeProxyHeader (proxyV1Bytes ++ [byte 10, byte 99]) =
      .ok (proxyV1Bytes ++ [byte 10], [byte 99]) :=
  (C8_proxy_v1_line_limit (proxyV1Bytes ++ [byte 10, byte 99]) (proxyV1Bytes ++ [byte 10])
    [byte 99] rfl rfl).1 (by decide)

/-- Concrete ClientHello record whose server_name extension holds a single
host_name entry of length zero. -/
def c10Record : List Byte :=
  mkClientHello [byte 3, byte 3] (List.replicate 32 (byte 1)) [] [] []
    (encodeExts [] ++ (encodeExt 0 (sniExtData [] [] []) ++ [])) []

/-- Concrete client stream for the empty-SNI record. -/
def c10Input : List Byte := byte 0x16 :: byte 3 :: byte 3 :: (be2 c10Record.length ++ c10Record)

/-- CLAIM C10. A ClientHello whose first host_name entry has length zero is
parsed by parseClientHelloForSNI to the empty string without error, but
extractSNI never succeeds with an empty SNI: it converts that case into the
failure no-SNI-present, as the concrete stream shows. -/
theorem C10_empty_sni :
    (∀ (ver rand sid cs comp trailing : List Byte) (pre preNames : List (Nat × List Byte))
       (namesPost extPost : List Byte),
      ver.length = 2 → rand.length = 32 → sid.length ≤ 255 → cs.length ≤ 65535 →
      comp.length ≤ 255 →
      (∀ p ∈ pre, 1 ≤ p.1 ∧ p.1 ≤ 65535 ∧ p.2.length ≤ 65535) →
      (∀ p ∈ preNames, 1 ≤ p.1 ∧ p.1 ≤ 255 ∧ p.2.length ≤ 65535) →
      (encodeNames preNames ++ (encodeName 0 [] ++ namesPost)).length ≤ 65533 →
      (encodeExts pre ++ (encodeExt 0 (sniExtData preNames [] namesPost) ++ extPost)).length
        ≤ 65535 →
      parseClientHelloForSNI (mkClientHello ver rand sid cs comp
        (encodeExts pre ++ (encodeExt 0 (sniExtData preNames [] namesPost) ++ extPost))
        trailing) = .ok []) ∧
    (∀ (input : List Byte) (buffered : Nat) (r : SNIOk),
      (extractSNI input buffered).outcome = .ok r → r.sni ≠ []) ∧
    extractSNI c10Input 0 = ⟨.error "no SNI present", false, []⟩ := by
  refine ⟨?_, ?_, by rfl⟩
  · intro ver rand sid cs comp trailing pre preNames namesPost extPost hv hr hs hc hm
      hpre hpn hnames hexts
    rw [parseClientHelloForSNI_mk _ _ _ _ _ _ _
      (mkHelloBody_length_le _ _ _ _ _ _ hv hr hs hc hm hexts)]
    rw [parseHelloBody_mk _ _ _ _ _ _ hv hr hs hc hm hexts]
    rw [parseExtensions_encodeExts _ _ hpre]
    rw [parseExtensions_sni _ _
      (by simp only [sniExtData, serverNameExtData, be2, List.length_append, List.length_cons,
        List.length_nil] at hnames ⊢; omega)]
    rw [sniExtData, parseServerNameExt_mk _
      (by simp only [List.length_append] at hnames ⊢; omega)]
    rw [parseSNIName_encodeNames _ _ hpn]
    rw [parseSNIName_hit _ _ (by simp)]
  · intro input buffered r h
    rw [extractSNI] at h
    cases hpx : maybeConsumeProxyHeader input with
    | error e => rw [hpx] at h; cases h
    | ok pr =>
      obtain ⟨preB, r1⟩ := pr
      rw [hpx] at h
      dsimp only [] at h
      rw [extractTLS] at h
      split at h
      · cases h
      · split at h
        · cases h
        · split at h
          · cases h
          · split at h
            · cases h
            · split at h
              · cases h
              · rename_i sni hparse
                split at h
                · cases h
                · rename_i hsni
                  simp only [Except.ok.injEq] at h
                  rw [← h]
                  exact hsni

/-- Witness for C10: the concrete empty-name record parses to the empty SNI,
and a concrete successful extraction has a nonempty SNI. -/
theorem C10_empty_sni_witness :
    parseClientHelloForSNI c10Record = .ok [] ∧ ([byte 97] : List Byte) ≠ [] :=
  ⟨C10_empty_sni.1 [byte 3, byte 3] (List.replicate 32 (byte 1)) [] [] [] [] [] [] [] []
      (by decide) (by decide) (by decide) (by decide) (by decide)
      (by intro p hp; simp at hp) (by intro p hp; simp at hp) (by decide) (by decide),
   C10_empty_sni.2.1 c2Input 0 ⟨[byte 97], [], c2Input, []⟩ (by rfl)⟩

/-- Modelled from the spec: sendTLSAlert and alertUnrecognizedName are
referenced by HandleConnection but their definition file is not in src;
section 6 of the spec fixes the rejection alert bytes as 15 03 03 00 02 02
70 (content type alert, TLS 1.2 version, length 2, level fatal, description
112 unrecognized_name). -/
def alertUnrecognizedName : List Byte :=
  [byte 0x15, byte 0x03, byte 0x03, byte 0x00, byte 0x02, byte 0x02, byte 0x70]

/-- ASCII bytes of the legacy reply OK newline. -/
def okReplyBytes : List Byte := [byte 0x4F, byte 0x4B, byte 0x0A]

/-- Whether the byte sequence OK newline occurs anywhere in a stream. -/
def containsOKReply (l : List Byte) : Bool :=
  match l with
  | b0 :: b1 :: b2 :: rest =>
    ([b0, b1, b2] = okReplyBytes : Bool) || containsOKReply (b1 :: b2 :: rest)
  | _ => false

/-- Client-bound bytes written by HandleConnection through the end of the
SNI-extraction phase: the bytes sent during extraction (at most the single
acceptance byte S), then, exactly when extraction failed, the TLS
unrecognized_name alert; the legacy reply OK is never written. -/
def handleConnectionClientBytes (input : List Byte) (buffered : Nat) : List Byte :=
  match (extractSNI input buffered).outcome with
  | .error _ => (extractSNI input buffered).sent ++ alertUnrecognizedName
  | .ok _ => (extractSNI input buffered).sent

theorem extractTLS_sent (preAll : List Byte) (saw : Bool) (pgSent r2 : List Byte)
    (buffered : Nat) : (extractTLS preAll saw pgSent r2 buffered).sent = pgSent := by
  rw [extractTLS]
  split
  · rfl
  · split
    · rfl
    · split
      · rfl
      · split
        · rfl
        · split
          · rfl
          · split
            · rfl
            · rfl

theorem maybeHandlePostgresSSLRequest_sent (input : List Byte) :
    (maybeHandlePostgresSSLRequest input).2.2.1 = [] ∨
      (maybeHandlePostgresSSLRequest input).2.2.1 = [byte 0x53] := by
  rw [maybeHandlePostgresSSLRequest]
  split
  · exact Or.inl rfl
  · split
    · exact Or.inl rfl
    · exact Or.inr rfl

theorem extractSNI_sent (input : List Byte) (buffered : Nat) :
    (extractSNI input buffered).sent = [] ∨ (extractSNI input buffered).sent = [byte 0x53] := by
  rw [extractSNI]
  cases hpx : maybeConsumeProxyHeader input with
  | error e => exact Or.inl rfl
  | ok pr =>
    obtain ⟨preB, r1⟩ := pr
    dsimp only []
    rw [extractTLS_sent]
    exact maybeHandlePostgresSSLRequest_sent r1

/-- CLAIM C9 (amended). Whenever SNI extraction fails, the handler writes to
the client exactly the seven-byte TLS alert 15 03 03 00 02 02 70 after the
extraction-phase bytes, then closes without writing anything else; in
particular the legacy reply OK is never written. -/
theorem C9_alert_on_failure :
    (∀ (input : List Byte) (buffered : Nat) (e : String),
      (extractSNI input buffered).outcome = .error e →
      handleConnectionClientBytes input buffered =
        (extractSNI input buffered).sent ++ alertUnrecognizedName) ∧
    alertUnrecognizedName =
      [byte 0x15, byte 0x03, byte 0x03, byte 0x00, byte 0x02, byte 0x02, byte 0x70] ∧
    alertUnrecognizedName.length = 7 ∧
    (∀ (input : List Byte) (buffered : Nat),
      containsOKReply (handleConnectionClientBytes input buffered) = false) := by
  refine ⟨?_, rfl, rfl, ?_⟩
  · intro input buffered e h
    rw [handleConnectionClientBytes, h]
  · intro input buffered
    rw [handleConnectionClientBytes]
    rcases extractSNI_sent input buffered with hs | hs <;>
      cases houtcome : (extractSNI input buffered).outcome <;> rw [hs] <;> rfl

/-- Counterexample for C9 as stated: the alert the handler writes on a
failing stream is the listed byte sequence, whose length is 7, not 5. -/
theorem C9_alert_on_failure_counterexample :
    handleConnectionClientBytes [] 0 =
      [byte 0x15, byte 0x03, byte 0x03, byte 0x00, byte 0x02, byte 0x02, byte 0x70] ∧
    (handleConnectionClientBytes [] 0).length ≠ 5 := by
  constructor
  · rfl
  · decide

/-- Witness for C9: on the empty stream extraction fails and the handler
output is exactly the alert; the output never contains the legacy reply. -/
theorem C9_alert_on_failure_witness :
    handleConnectionClientBytes [] 0 = (extractSNI [] 0).sent ++ alertUnrecognizedName ∧
    containsOKReply (handleConnectionClientBytes [] 0) = false :=
  ⟨C9_alert_on_failure.1 [] 0 "reading TLS header" rfl, C9_alert_on_failure.2.2.2 [] 0⟩

/-! ### Hostname derivation and validation

Go strings are modelled as lists of code points.  TrimSpace and ToLower are
modelled on the Latin-1 range (the whitespace set of unicode.IsSpace there,
and the ASCII case mapping); every hostname the validator accepts is ASCII,
where the model and Go agree exactly, byte length and rune length
included. -/

/-- Whitespace set of unicode.IsSpace restricted to Latin-1: space, tab,
LF, VT, FF, CR, NEL, NBSP. -/
def isSpaceGo (c : Nat) : Bool :=
  c == 32 || c == 9 || c == 10 || c == 11 || c == 12 || c == 13 || c == 0x85 || c == 0xA0

/-- Model of strings.TrimSpace: drop leading and trailing whitespace. -/
def trimSpace (s : List Nat) : List Nat :=
  ((s.dropWhile isSpaceGo).reverse.dropWhile isSpaceGo).reverse

/-- ASCII case mapping of unicode.ToLower. -/
def toLowerRune (c : Nat) : Nat := if 65 ≤ c ∧ c ≤ 90 then c + 32 else c

/-- Model of strings.ToLower. -/
def toLowerStr (s : List Nat) : List Nat := s.map toLowerRune

/-- Character class of the label regular expression: letters, digits,
hyphen. -/
def isHostRune (c : Nat) : Bool :=
  decide (97 ≤ c ∧ c ≤ 122) || decide (65 ≤ c ∧ c ≤ 90) || decide (48 ≤ c ∧ c ≤ 57) || c == 45

/-- Model of strings.Split on the dot (code point 46): every separator
splits, empty fields included. -/
def splitDot : List Nat → List (List Nat)
  | [] => [[]]
  | c :: rest =>
    if c = 46 then [] :: splitDot rest
    else
      match splitDot rest with
      | [] => [[c]]
      | l :: ls => (c :: l) :: ls

/-- Model of strings.Contains for the two-dot pattern. -/
def containsDotDot : List Nat → Bool
  | a :: b :: rest => (a == 46 && b == 46) || containsDotDot (b :: rest)
  | _ => false

/-- One label check of the Go loop: nonempty, at most 63, matches the
regular expression, no leading or trailing hyphen. -/
def validLabelGo (l : List Nat) : Bool :=
  !l.isEmpty && decide (l.length ≤ 63) && l.all isHostRune &&
    !(l.head? == some 45) && !(l.getLast? == some 45)

/-- Embedding of validateHostname: trim, then the chain of early-return
checks of the Go function, rendered as a conjunction (a Go error return is
a false conjunct). -/
def validateHostname (host0 : List Nat) : Bool :=
  let host := trimSpace host0
  !host.isEmpty && decide (host.length ≤ 253) &&
    !(host.head? == some 46) && !(host.getLast? == some 46) &&
    host.contains 46 && !containsDotDot host &&
    (splitDot host).all validLabelGo

/-- ASCII bytes of the fixed derivation tag cft-. -/
def cftTag : List Nat := [99, 102, 116, 45]

/-- Embedding of deriveTunnelHostname: normalize and put the tag in
front. -/
def deriveTunnelHostname (sni : List Nat) : List Nat :=
  cftTag ++ toLowerStr (trimSpace sni)

/-- Embedding of deriveValidatedTunnelHostname: normalize, validate, derive,
re-validate. -/
def deriveValidatedTunnelHostname (sni : List Nat) : Except String (List Nat) :=
  if validateHostname (toLowerStr (trimSpace sni)) then
    if validateHostname (deriveTunnelHostname (toLowerStr (trimSpace sni))) then
      .ok (deriveTunnelHostname (toLowerStr (trimSpace sni)))
    else .error "invalid derived hostname"
  else .error "invalid SNI"

/-- The DNS validation rules as the claim words them: non-empty, at most
253 characters, at least one dot, no leading or trailing dot, no empty
label, every label at most 63 characters drawn from letters, digits and
hyphens with no leading or trailing hyphen. -/
def specValidHostname (h : List Nat) : Prop :=
  h ≠ [] ∧ h.length ≤ 253 ∧ 46 ∈ h ∧ h.head? ≠ some 46 ∧ h.getLast? ≠ some 46 ∧
    ∀ l ∈ splitDot h, l ≠ [] ∧ l.length ≤ 63 ∧ (∀ c ∈ l, isHostRune c = true) ∧
      l.head? ≠ some 45 ∧ l.getLast? ≠ some 45

theorem splitDot_ne_nil (h : List Nat) : splitDot h ≠ [] := by
  cases h with
  | nil => simp [splitDot]
  | cons c rest =>
    rw [splitDot]
    by_cases hc : c = 46
    · rw [if_pos hc]; simp
    · rw [if_neg hc]
      cases hs : splitDot rest <;> simp

theorem splitDot_cons_dot (rest : List Nat) : splitDot (46 :: rest) = [] :: splitDot rest := by
  rw [splitDot, if_pos rfl]

theorem splitDot_cons_ne (c : Nat) (rest l : List Nat) (ls : List (List Nat)) (hc : c ≠ 46)
    (hrest : splitDot rest = l :: ls) : splitDot (c :: rest) = (c :: l) :: ls := by
  rw [splitDot, if_neg hc, hrest]

theorem noDotDot (n : Nat) : ∀ h : List Nat, h.length ≤ n →
    (∀ l ∈ splitDot h, l ≠ []) → containsDotDot h = false := by
  induction n with
  | zero =>
    intro h hlen _
    have : h = [] := List.length_eq_zero.mp (Nat.le_zero.mp hlen)
    subst this
    rfl
  | succ n ih =>
    intro h hlen hl
    rcases h with _ | ⟨a, _ | ⟨b, rest⟩⟩
    · rfl
    · rfl
    · by_cases ha : a = 46
      · exfalso
        refine hl [] ?_ rfl
        rw [ha, splitDot_cons_dot]
        exact List.mem_cons_self _ _
      · obtain ⟨l, ls, hbr⟩ := List.exists_cons_of_ne_nil (splitDot_ne_nil (b :: rest))
        have hsplit := splitDot_cons_ne a (b :: rest) l ls ha hbr
        rw [containsDotDot]
        have ha' : (a == 46) = false := beq_eq_false_iff_ne.mpr ha
        rw [ha', Bool.false_and, Bool.false_or]
        by_cases hb : b = 46
        · subst hb
          rw [splitDot_cons_dot] at hbr
          injection hbr with hbl hbls
          cases rest with
          | nil => rfl
          | cons r rs =>
            rw [containsDotDot]
            by_cases hr : r = 46
            · exfalso
              refine hl [] ?_ rfl
              rw [hsplit, ← hbl, ← hbls, hr, splitDot_cons_dot]
              exact List.mem_cons_of_mem _ (List.mem_cons_self _ _)
            · have hr' : (r == 46) = false := beq_eq_false_iff_ne.mpr hr
              rw [Bool.and_comm, hr', Bool.false_and, Bool.false_or]
              apply ih (r :: rs) (by simp at hlen ⊢; omega)
              intro l' hl'
              refine hl l' ?_
              rw [hsplit, ← hbls]
              exact List.mem_cons_of_mem _ hl'
        · apply ih (b :: rest) (by simp at hlen ⊢; omega)
          intro l' hl'
          rw [hbr] at hl'
          rcases List.mem_cons.mp hl' with hh | ht
          · obtain ⟨l2, ls2, hrr⟩ := List.exists_cons_of_ne_nil (splitDot_ne_nil rest)
            have := splitDot_cons_ne b rest l2 ls2 hb hrr
            rw [this] at hbr
            injection hbr with h1 h2
            rw [hh, ← h1]
            simp
          · refine hl l' ?_
            rw [hsplit]
            exact List.mem_cons_of_mem _ ht

theorem head_dropWhile_false (p : Nat → Bool) (l : List Nat) :
    ∀ c, (l.dropWhile p).head? = some c → p c = false := by
  induction l with
  | nil => intro c h; simp [List.dropWhile] at h
  | cons a t ih =>
    intro c h
    rw [List.dropWhile_cons] at h
    by_cases hp : p a
    · rw [if_pos hp] at h
      exact ih c h
    · rw [if_neg hp] at h
      simp only [List.head?_cons, Option.some.injEq] at h
      rw [← h]
      exact Bool.not_eq_true _ ▸ eq_false_of_ne_true hp

theorem dropWhile_eq_self_of (p : Nat → Bool) (l : List Nat)
    (h : ∀ c, l.head? = some c → p c = false) : l.dropWhile p = l := by
  cases l with
  | nil => rfl
  | cons a t =>
    rw [List.dropWhile_cons, if_neg]
    rw [h a rfl]
    simp

theorem getLast_dropWhile (p : Nat → Bool) (l : List Nat) (h : l.dropWhile p ≠ []) :
    (l.dropWhile p).getLast? = l.getLast? := by
  induction l with
  | nil => simp [List.dropWhile] at h
  | cons a t ih =>
    rw [List.dropWhile_cons] at h ⊢
    by_cases hp : p a
    · rw [if_pos hp] at h ⊢
      cases t with
      | nil => simp [List.dropWhile] at h
      | cons b l2 =>
        rw [List.getLast?_cons_cons]
        exact ih h
    · rw [if_neg hp]

theorem trimSpace_eq_self (t : List Nat)
    (h1 : ∀ c, t.head? = some c → isSpaceGo c = false)
    (h2 : ∀ c, t.reverse.head? = some c → isSpaceGo c = false) :
    trimSpace t = t := by
  rw [trimSpace, dropWhile_eq_self_of _ _ h1, dropWhile_eq_self_of _ _ h2, List.reverse_reverse]

theorem trimSpace_head (s : List Nat) :
    ∀ c, (trimSpace s).head? = some c → isSpaceGo c = false := by
  intro c hc
  rw [trimSpace, List.head?_reverse] at hc
  by_cases hw : (s.dropWhile isSpaceGo).reverse.dropWhile isSpaceGo = []
  · rw [hw] at hc
    cases hc
  · rw [getLast_dropWhile _ _ hw, List.getLast?_reverse] at hc
    exact head_dropWhile_false _ _ c hc

theorem trimSpace_last (s : List Nat) :
    ∀ c, (trimSpace s).reverse.head? = some c → isSpaceGo c = false := by
  intro c hc
  rw [trimSpace, List.reverse_reverse] at hc
  exact head_dropWhile_false _ _ c hc

theorem trimSpace_idem (s : List Nat) : trimSpace (trimSpace s) = trimSpace s :=
  trimSpace_eq_self _ (trimSpace_head s) (trimSpace_last s)

theorem isSpaceGo_toLowerRune (c : Nat) (h : isSpaceGo c = false) :
    isSpaceGo (toLowerRune c) = false := by
  rw [toLowerRune]
  by_cases hr : 65 ≤ c ∧ c ≤ 90
  · rw [if_pos hr]
    simp only [isSpaceGo, Bool.or_eq_false_iff, beq_eq_false_iff_ne, ne_eq]
    omega
  · rw [if_neg hr]
    exact h

theorem trimSpace_toLowerStr (t : List Nat) (ht : trimSpace t = t) :
    trimSpace (toLowerStr t) = toLowerStr t := by
  apply trimSpace_eq_self
  · intro c hc
    rw [toLowerStr, List.head?_map] at hc
    cases hh : t.head? with
    | none => rw [hh] at hc; cases hc
    | some c0 =>
      rw [hh] at hc
      simp only [Option.map_some', Option.some.injEq] at hc
      rw [← hc]
      refine isSpaceGo_toLowerRune c0 ?_
      refine trimSpace_head t c0 ?_
      rw [ht, hh]
  · intro c hc
    rw [toLowerStr, ← List.map_reverse, List.head?_map] at hc
    cases hh : t.reverse.head? with
    | none => rw [hh] at hc; cases hc
    | some c0 =>
      rw [hh] at hc
      simp only [Option.map_some', Option.some.injEq] at hc
      rw [← hc]
      refine isSpaceGo_toLowerRune c0 ?_
      refine trimSpace_last t c0 ?_
      rw [ht, hh]

theorem trimSpace_cft (t : List Nat) (ht : trimSpace t = t) :
    trimSpace (cftTag ++ t) = cftTag ++ t := by
  apply trimSpace_eq_self
  · intro c hc
    simp only [cftTag, List.cons_append, List.head?_cons, Option.some.injEq] at hc
    rw [← hc]
    rfl
  · intro c hc
    rw [List.reverse_append] at hc
    cases hr : t.reverse with
    | nil =>
      rw [hr] at hc
      simp only [List.nil_append, cftTag] at hc
      simp only [List.reverse_cons, List.nil_append] at hc
      simp at hc
      rw [← hc]
      rfl
    | cons c0 cs =>
      rw [hr] at hc
      simp only [List.cons_append, List.head?_cons, Option.some.injEq] at hc
      rw [← hc]
      refine trimSpace_last t c0 ?_
      rw [ht, hr]
      rfl

theorem toLowerRune_idem (c : Nat) : toLowerRune (toLowerRune c) = toLowerRune c := by
  rw [toLowerRune, toLowerRune]
  by_cases hr : 65 ≤ c ∧ c ≤ 90
  · rw [if_pos hr, if_neg (by omega)]
  · rw [if_neg hr, if_neg hr]

theorem toLowerStr_idem (t : List Nat) : toLowerStr (toLowerStr t) = toLowerStr t := by
  rw [toLowerStr, toLowerStr, List.map_map]
  exact List.map_congr_left (fun c _ => toLowerRune_idem c)

theorem validLabelGo_iff (l : List Nat) : validLabelGo l = true ↔
    (l ≠ [] ∧ l.length ≤ 63 ∧ (∀ c ∈ l, isHostRune c = true) ∧
      l.head? ≠ some 45 ∧ l.getLast? ≠ some 45) := by
  simp [validLabelGo, List.all_eq_true, List.isEmpty_iff, and_assoc]

theorem validateHostname_iff (h : List Nat) (ht : trimSpace h = h) :
    validateHostname h = true ↔ specValidHostname h := by
  rw [validateHostname]
  simp only [ht]
  rw [specValidHostname]
  simp only [Bool.and_eq_true, Bool.not_eq_true', List.all_eq_true, decide_eq_true_eq,
    List.isEmpty_eq_false, beq_eq_false_iff_ne, ne_eq, List.elem_iff, List.contains]
  constructor
  · rintro ⟨⟨⟨⟨⟨⟨hne, h253⟩, hhd⟩, hlst⟩, hmem⟩, hdd⟩, hlab⟩
    refine ⟨hne, h253, hmem, hhd, hlst, ?_⟩
    intro l hl
    exact (validLabelGo_iff l).mp (hlab l hl)
  · rintro ⟨hne, h253, hmem, hhd, hlst, hlab⟩
    refine ⟨⟨⟨⟨⟨⟨hne, h253⟩, hhd⟩, hlst⟩, hmem⟩, ?_⟩, ?_⟩
    · exact noDotDot h.length h (Nat.le_refl _) (fun l hl => ((hlab l hl).1))
    · intro l hl
      exact (validLabelGo_iff l).mpr (hlab l hl)

/-- CLAIM C3. deriveValidatedTunnelHostname is a pure function that
succeeds exactly when the lowercased trimmed input and its cft- prefixed
derivation both pass the DNS validation rules, in which case it returns
exactly the prefixed derivation; otherwise it returns an invalid-SNI
error. -/
theorem C3_derive_validated_hostname :
    (∀ s : List Nat, (∃ h, deriveValidatedTunnelHostname s = .ok h) ↔
      (specValidHostname (toLowerStr (trimSpace s)) ∧
        specValidHostname (cftTag ++ toLowerStr (trimSpace s)))) ∧
    (∀ (s h : List Nat), deriveValidatedTunnelHostname s = .ok h →
      h = cftTag ++ toLowerStr (trimSpace s)) := by
  have hnormt : ∀ s : List Nat, trimSpace (toLowerStr (trimSpace s)) = toLowerStr (trimSpace s) :=
    fun s => trimSpace_toLowerStr _ (trimSpace_idem s)
  have hder : ∀ s : List Nat,
      deriveTunnelHostname (toLowerStr (trimSpace s)) = cftTag ++ toLowerStr (trimSpace s) := by
    intro s
    rw [deriveTunnelHostname, hnormt s, toLowerStr_idem]
  have hcftt : ∀ s : List Nat,
      trimSpace (cftTag ++ toLowerStr (trimSpace s)) = cftTag ++ toLowerStr (trimSpace s) :=
    fun s => trimSpace_cft _ (hnormt s)
  constructor
  · intro s
    rw [deriveValidatedTunnelHostname, hder s]
    constructor
    · intro ⟨h, hh⟩
      by_cases h1 : validateHostname (toLowerStr (trimSpace s))
      · by_cases h2 : validateHostname (cftTag ++ toLowerStr (trimSpace s))
        · exact ⟨(validateHostname_iff _ (hnormt s)).mp h1,
            (validateHostname_iff _ (hcftt s)).mp h2⟩
        · rw [if_pos h1, if_neg h2] at hh
          cases hh
      · rw [if_neg h1] at hh
        cases hh
    · intro ⟨hs1, hs2⟩
      rw [if_pos ((validateHostname_iff _ (hnormt s)).mpr hs1),
        if_pos ((validateHostname_iff _ (hcftt s)).mpr hs2)]
      exact ⟨_, rfl⟩
  · intro s h hh
    rw [deriveValidatedTunnelHostname, hder s] at hh
    by_cases h1 : validateHostname (toLowerStr (trimSpace s))
    · by_cases h2 : validateHostname (cftTag ++ toLowerStr (trimSpace s))
      · rw [if_pos h1, if_pos h2] at hh
        exact (Except.ok.injEq _ _ ▸ hh).symm
      · rw [if_pos h1, if_neg h2] at hh
        cases hh
    · rw [if_neg h1] at hh
      cases hh

/-- Witness for C3: the concrete SNI a.b derives cft-a.b, and both sides of
the equivalence hold on it. -/
theorem C3_derive_validated_hostname_witness :
    ([99, 102, 116, 45, 97, 46, 98] : List Nat) = cftTag ++ toLowerStr (trimSpace [97, 46, 98]) ∧
    (∃ h, deriveValidatedTunnelHostname [97, 46, 98] = .ok h) :=
  ⟨C3_derive_validated_hostname.2 [97, 46, 98] [99, 102, 116, 45, 97, 46, 98] rfl,
   (C3_derive_validated_hostname.1 [97, 46, 98]).mpr ⟨by unfold specValidHostname; decide, by unfold specValidHostname; decide⟩⟩

/-! ### Tunnel lifecycle state machine

Per-hostname state of the NodeManager, with one event per mutex-protected
critical section of the source.  Ready channels are identified by
generation numbers; a launch task carries the generation it was started
with, and the close-if-still-current guards of the source compare it
against the state.  Events are enabled nondeterministically, which
over-approximates goroutine scheduling; the launches counter counts
launchTunnel tasks started (go statements and timer callbacks), and the
port pool is abstracted to the reserved port value carried by the
reservation event. -/

inductive ChildSt where
  | noChild
  | running
  | exited
deriving DecidableEq

/-- Mirror of nodeState plus the manager closed flag: reference count,
pending idle timer, child process handle, in-flight ready channel
generation, next fresh generation, recorded start error, assigned port,
consecutive restart count, and the count of launch tasks spawned. -/
structure MState where
  closed : Bool
  refCount : Int
  idleTimer : Bool
  child : ChildSt
  ready : Option Nat
  readyCtr : Nat
  startErr : Bool
  port : Int
  restarts : Int
  launches : Nat
deriving DecidableEq

/-- Fresh state: no child, no reservation, counters at zero. -/
def initMState : MState :=
  ⟨false, 0, false, .noChild, none, 0, false, 0, 0, 0⟩

/-- GetOrStart first critical section: reject when closed; increment
refCount; stop a pending idle timer; when no live child is running and no
ready channel is in flight, create a fresh ready channel and start a
launch task. -/
def applyEnter (s : MState) : MState :=
  if s.closed then s
  else
    let s1 := { s with refCount := s.refCount + 1, idleTimer := false }
    if s1.child ≠ .running ∧ s1.ready = none then
      { s1 with
        ready := some s1.readyCtr
        readyCtr := s1.readyCtr + 1
        launches := s1.launches + 1 }
    else s1

/-- Release: decrement refCount bounded at zero; when it is zero and no
idle timer is pending, arm one. -/
def applyRelease (s : MState) : MState :=
  let s1 := if 0 < s.refCount then { s with refCount := s.refCount - 1 } else s
  if s1.refCount = 0 ∧ s1.idleTimer = false then { s1 with idleTimer := true } else s1

/-- Launch task, port reservation succeeded with port p: only taken when
the task saw no assigned port; records the port. -/
def applyReserveOk (p : Int) (s : MState) : MState :=
  if s.port = 0 ∧ p ≠ 0 then { s with port := p } else s

/-- Launch task, port reservation failed: record the error and close the
ready channel if the state still references this task's generation. -/
def applyReserveFail (g : Nat) (s : MState) : MState :=
  if s.port = 0 then
    { s with startErr := true, ready := if s.ready = some g then none else s.ready }
  else s

/-- Launch task, child spawned: record the child and clear the error. -/
def applySpawnOk (s : MState) : MState :=
  { s with child := .running, startErr := false }

/-- Launch task, spawn failed: clear child, record the error, drop the
port, close the ready channel if still current. -/
def applySpawnFail (g : Nat) (s : MState) : MState :=
  { s with
    startErr := true
    child := .noChild
    port := 0
    ready := if s.ready = some g then none else s.ready }

/-- Launch task, readiness probe succeeded: clear the error, zero the
restart counter, and close the ready channel (the reference itself is left
in place by the source). -/
def applyProbeOk (s : MState) : MState :=
  { s with startErr := false, restarts := 0 }

/-- Launch task, readiness probe timed out: kill and reap the child, record
the error, drop the port, close the ready channel if still current. -/
def applyProbeFail (g : Nat) (s : MState) : MState :=
  { s with
    child := .noChild
    startErr := true
    port := 0
    ready := if s.ready = some g then none else s.ready }

/-- The running child process exits. -/
def applyChildExit (s : MState) : MState :=
  if s.child = .running then { s with child := .exited } else s

/-- handleProcessExit, enabled once the child's Wait has returned: snapshot
refCount, clear child and ready, record the exit error, bump the restart
counter; then, when connections are attached and the counter is within
maxRestarts, create a fresh ready channel and schedule a launch task after
the backoff. -/
def applyHandleExit (maxR : Int) (s : MState) : MState :=
  if s.child = .exited then
    let s1 := { s with
      child := .noChild
      ready := none
      startErr := true
      restarts := s.restarts + 1 }
    if 0 < s.refCount ∧ s1.restarts ≤ maxR then
      { s1 with
        ready := some s1.readyCtr
        readyCtr := s1.readyCtr + 1
        launches := s1.launches + 1 }
    else s1
  else s

/-- stopNode: a no-op when connections are attached and the stop is not
forced; otherwise swap out child, ready, port and idle timer, record the
stopped error, and release the port. -/
def applyStop (force : Bool) (s : MState) : MState :=
  if 0 < s.refCount ∧ force = false then s
  else
    { s with
      child := .noChild
      ready := none
      startErr := true
      idleTimer := false
      port := 0 }

/-- Shutdown first section: set the closed flag. -/
def applyCloseMgr (s : MState) : MState := { s with closed := true }

inductive MEv where
  | enter
  | release
  | reserveOk (p : Int)
  | reserveFail (g : Nat)
  | spawnOk
  | spawnFail (g : Nat)
  | probeOk
  | probeFail (g : Nat)
  | childExit
  | handleExit
  | stopIdle
  | stopForce
  | closeMgr
deriving DecidableEq

/-- One atomic step of the manager model. -/
def stepM (maxR : Int) : MEv → MState → MState
  | .enter => applyEnter
  | .release => applyRelease
  | .reserveOk p => applyReserveOk p
  | .reserveFail g => applyReserveFail g
  | .spawnOk => applySpawnOk
  | .spawnFail g => applySpawnFail g
  | .probeOk => applyProbeOk
  | .probeFail g => applyProbeFail g
  | .childExit => applyChildExit
  | .handleExit => applyHandleExit maxR
  | .stopIdle => applyStop false
  | .stopForce => applyStop true
  | .closeMgr => applyCloseMgr

/-- Run a sequence of events from a state. -/
def runM (maxR : Int) (evs : List MEv) (s : MState) : MState :=
  evs.foldl (fun t e => stepM maxR e t) s

theorem stepM_inv (maxR : Int) (e : MEv) (s : MState)
    (h : 0 ≤ s.refCount ∧ (0 < s.refCount → s.idleTimer = false)) :
    0 ≤ (stepM maxR e s).refCount ∧
      (0 < (stepM maxR e s).refCount → (stepM maxR e s).idleTimer = false) := by
  obtain ⟨h1, h2⟩ := h
  cases e <;>
    simp only [stepM, applyEnter, applyRelease, applyReserveOk, applyReserveFail, applySpawnOk,
      applySpawnFail, applyProbeOk, applyProbeFail, applyChildExit, applyHandleExit, applyStop,
      applyCloseMgr] <;>
    (try split_ifs) <;> (try simp_all) <;> (try omega)

theorem runM_inv (maxR : Int) (evs : List MEv) (s : MState)
    (h : 0 ≤ s.refCount ∧ (0 < s.refCount → s.idleTimer = false)) :
    0 ≤ (runM maxR evs s).refCount ∧
      (0 < (runM maxR evs s).refCount → (runM maxR evs s).idleTimer = false) := by
  induction evs generalizing s with
  | nil => exact h
  | cons e tl ih => exact ih (stepM maxR e s) (stepM_inv maxR e s h)

/-- CLAIM C6 (amended). In every state reachable by any event sequence,
refCount is non-negative and a positive refCount excludes a pending idle
timer; Release on a zero count leaves refCount at zero.  (A pending idle
timer does not require a child: the counterexample reaches a state with a
pending timer and no child.) -/
theorem C6_refcount_idle_invariant :
    (∀ (maxR : Int) (evs : List MEv),
      0 ≤ (runM maxR evs initMState).refCount ∧
        (0 < (runM maxR evs initMState).refCount →
          (runM maxR evs initMState).idleTimer = false)) ∧
    (∀ s : MState, s.refCount = 0 → (applyRelease s).refCount = 0) := by
  constructor
  · intro maxR evs
    exact runM_inv maxR evs initMState (by constructor <;> simp [initMState])
  · intro s h
    simp only [applyRelease, h, lt_irrefl, if_false]
    split
    · rfl
    · exact h

/-- Counterexample for C6 as stated: after a failed spawn is released, the
idle timer is pending although no child exists, refuting the claimed
equivalence of a pending timer with refCount zero and an existing child. -/
theorem C6_refcount_idle_invariant_counterexample :
    ¬ ((runM 3 [.enter, .reserveOk 20000, .spawnFail 0, .release] initMState).idleTimer = true ↔
      ((runM 3 [.enter, .reserveOk 20000, .spawnFail 0, .release] initMState).refCount = 0 ∧
        (runM 3 [.enter, .reserveOk 20000, .spawnFail 0, .release] initMState).child ≠
          ChildSt.noChild)) := by
  decide

/-- Witness for C6: a one-event run keeps the invariant, and Release at
zero leaves the count at zero. -/
theorem C6_refcount_idle_invariant_witness :
    0 ≤ (runM 3 [.enter] initMState).refCount ∧ (applyRelease initMState).refCount = 0 :=
  ⟨(C6_refcount_idle_invariant.1 3 [.enter]).1,
   C6_refcount_idle_invariant.2 initMState rfl⟩

/-- Five ready-then-crash cycles of one tunnel with one attached
connection. -/
def c5Trace : List MEv :=
  [.enter, .reserveOk 20000, .spawnOk, .probeOk, .childExit, .handleExit,
   .spawnOk, .probeOk, .childExit, .handleExit,
   .spawnOk, .probeOk, .childExit, .handleExit,
   .spawnOk, .probeOk, .childExit, .handleExit,
   .spawnOk, .probeOk, .childExit, .handleExit]

/-- CLAIM C5 (code evidence). With maxRestarts 3, five consecutive
ready-then-crash cycles leave the restart counter at 1 with a sixth launch
already scheduled: the counter is reset to zero on every successful
readiness probe and only incremented in the exit handler, so it never
exceeds maxRestarts and the cap never halts restarting; and GetOrStart
spawns a fresh launch whenever no child is running and no ready channel is
pending, regardless of the stored startError, instead of failing fast. -/
theorem C5_restart_cap_dead :
    ((runM 3 c5Trace initMState).restarts = 1 ∧
      (runM 3 c5Trace initMState).launches = 6 ∧
      (runM 3 c5Trace initMState).ready ≠ none) ∧
    (∀ s : MState, s.closed = false → s.child = ChildSt.noChild → s.ready = none →
      (applyEnter s).launches = s.launches + 1 ∧ (applyEnter s).ready = some s.readyCtr) ∧
    (∀ s : MState, (applyProbeOk s).restarts = 0) := by
  refine ⟨by decide, ?_, fun s => rfl⟩
  intro s h1 h2 h3
  simp [applyEnter, h1, h2, h3]

/-- Witness for C5: the fresh state satisfies the enter-spawns property. -/
theorem C5_restart_cap_dead_witness :
    (applyEnter initMState).launches = initMState.launches + 1 ∧
    (applyEnter initMState).ready = some initMState.readyCtr :=
  C5_restart_cap_dead.2.1 initMState rfl rfl rfl

/-! ### Port pool

The loopback port pool: an inclusive integer range with a reserved set.
The OS bind probe is an oracle passed to reserve; the probe of the source
returns false outright for non-positive ports.  Traces record reservation
results and releases; the reserve oracle may differ per call, modelling a
changing OS state. -/

/-- Mirror of portPool: range bounds and the reserved set (the Go map with
true values).  The upper bound field is named stop because the Go name end
is reserved in Lean. -/
structure PortPool where
  start : Int
  stop : Int
  used : Finset Int
deriving DecidableEq

/-- Fresh pool with an empty reserved set. -/
def newPortPool (a b : Int) : PortPool := ⟨a, b, ∅⟩

/-- Embedding of isPortAvailable: non-positive ports are never available;
otherwise the OS probe decides. -/
def isPortAvailable (avail : Int → Bool) (port : Int) : Bool :=
  if port ≤ 0 then false else avail port

/-- The scan order of reserve: start, start+1, ..., stop. -/
def poolCandidates (p : PortPool) : List Int :=
  (List.range (p.stop + 1 - p.start).toNat).map (fun i => p.start + i)

/-- Embedding of portPool.reserve: first candidate in scan order that is
not reserved and passes the probe; mark it reserved. -/
def PortPool.reserve (avail : Int → Bool) (p : PortPool) : Option (Int × PortPool) :=
  match (poolCandidates p).find? (fun c => decide (c ∉ p.used) && isPortAvailable avail c) with
  | none => none
  | some c => some (c, { p with used := insert c p.used })

/-- Embedding of portPool.release: no-op on port zero, otherwise unmark. -/
def PortPool.release (port : Int) (p : PortPool) : PortPool :=
  if port = 0 then p else { p with used := p.used.erase port }

inductive PEvent where
  | reserved (q : Int)
  | reserveFail
  | released (q : Int)
deriving DecidableEq

/-- Trace semantics of the pool: each event is one call under the pool
mutex, with the reservation outcome recorded in the event. -/
inductive PoolTrace : PortPool → List PEvent → PortPool → Prop where
  | nil (p : PortPool) : PoolTrace p [] p
  | rsv (avail : Int → Bool) (p : PortPool) (q : Int) (p2 pf : PortPool) (evs : List PEvent) :
      PortPool.reserve avail p = some (q, p2) → PoolTrace p2 evs pf →
      PoolTrace p (.reserved q :: evs) pf
  | rsvFail (avail : Int → Bool) (p pf : PortPool) (evs : List PEvent) :
      PortPool.reserve avail p = none → PoolTrace p evs pf →
      PoolTrace p (.reserveFail :: evs) pf
  | rel (p pf : PortPool) (q : Int) (evs : List PEvent) :
      PoolTrace (PortPool.release q p) evs pf → PoolTrace p (.released q :: evs) pf

theorem reserve_some (avail : Int → Bool) (p : PortPool) (q : Int) (p2 : PortPool)
    (h : PortPool.reserve avail p = some (q, p2)) :
    q ∉ p.used ∧ 0 < q ∧ p2.used = insert q p.used := by
  rw [PortPool.reserve] at h
  cases hfind : (poolCandidates p).find?
      (fun c => decide (c ∉ p.used) && isPortAvailable avail c) with
  | none => rw [hfind] at h; cases h
  | some c =>
    rw [hfind] at h
    have hpred := List.find?_some hfind
    rw [Bool.and_eq_true] at hpred
    obtain ⟨hp1, hp2av⟩ := hpred
    simp only [Option.some.injEq, Prod.mk.injEq] at h
    obtain ⟨hqc, hp2⟩ := h
    subst hqc
    refine ⟨of_decide_eq_true hp1, ?_, ?_⟩
    · rw [isPortAvailable] at hp2av
      by_cases hq : c ≤ 0
      · rw [if_pos hq] at hp2av
        cases hp2av
      · omega
    · rw [← hp2]

theorem poolTrace_persist (P : PortPool) (evs : List PEvent) (Q : PortPool)
    (h : PoolTrace P evs Q) (q : Int) (hq : q ∈ P.used) (hrel : PEvent.released q ∉ evs) :
    q ∈ Q.used := by
  induction h with
  | nil => exact hq
  | rsv avail p q0 p2 pf evs0 hres htr ih =>
    have := (reserve_some _ _ _ _ hres).2.2
    refine ih ?_ (by simp at hrel; exact hrel)
    rw [this]
    exact Finset.mem_insert_of_mem hq
  | rsvFail avail p pf evs0 hres htr ih =>
    exact ih hq (by simp at hrel; exact hrel)
  | rel p pf q0 evs0 htr ih =>
    simp only [List.mem_cons, not_or] at hrel
    refine ih ?_ hrel.2
    rw [PortPool.release]
    by_cases h0 : q0 = 0
    · rw [if_pos h0]
      exact hq
    · rw [if_neg h0]
      refine Finset.mem_erase.mpr ⟨?_, hq⟩
      intro he
      exact hrel.1 (by rw [he])

theorem poolTrace_wf (P : PortPool) (evs : List PEvent) (Q : PortPool)
    (h : PoolTrace P evs Q) (hwf : ∀ x ∈ P.used, 0 < x) : ∀ x ∈ Q.used, 0 < x := by
  induction h with
  | nil => exact hwf
  | rsv avail p q0 p2 pf evs0 hres htr ih =>
    obtain ⟨_, hpos, hins⟩ := reserve_some _ _ _ _ hres
    refine ih ?_
    intro x hx
    rw [hins] at hx
    rcases Finset.mem_insert.mp hx with hx | hx
    · rw [hx]; exact hpos
    · exact hwf x hx
  | rsvFail avail p pf evs0 hres htr ih => exact ih hwf
  | rel p pf q0 evs0 htr ih =>
    refine ih ?_
    intro x hx
    rw [PortPool.release] at hx
    by_cases h0 : q0 = 0
    · rw [if_pos h0] at hx
      exact hwf x hx
    · rw [if_neg h0] at hx
      exact hwf x (Finset.mem_erase.mp hx).2

theorem poolTrace_mem_iff (P : PortPool) (evs : List PEvent) (Q : PortPool)
    (h : PoolTrace P evs Q) (q : Int) : (∀ x ∈ P.used, 0 < x) →
    (q ∈ Q.used ↔
      ((∃ pre post, evs = pre ++ PEvent.reserved q :: post ∧ PEvent.released q ∉ post) ∨
        (q ∈ P.used ∧ PEvent.released q ∉ evs))) := by
  induction h with
  | nil p =>
    intro hwf
    simp only [List.not_mem_nil, not_false_eq_true, and_true]
    constructor
    · intro hq
      exact Or.inr hq
    · rintro (⟨pre, post, habs, _⟩ | hq)
      · exact absurd habs (by simp)
      · exact hq
  | rsv avail p q0 p2 pf evs0 hres htr ih =>
    intro hwf
    obtain ⟨hq0notin, hq0pos, hins⟩ := reserve_some _ _ _ _ hres
    have hwf2 : ∀ x ∈ p2.used, 0 < x := by
      intro x hx
      rw [hins] at hx
      rcases Finset.mem_insert.mp hx with hx | hx
      · rw [hx]; exact hq0pos
      · exact hwf x hx
    have ihq := ih hwf2
    constructor
    · intro hq
      rcases ihq.mp hq with ⟨pre, post, he, hn⟩ | ⟨hmem, hn⟩
      · exact Or.inl ⟨.reserved q0 :: pre, post, by rw [he, List.cons_append], hn⟩
      · rw [hins] at hmem
        rcases Finset.mem_insert.mp hmem with hqq | hmem2
        · exact Or.inl ⟨[], evs0, by rw [hqq, List.nil_append], hn⟩
        · refine Or.inr ⟨hmem2, ?_⟩
          simp only [List.mem_cons, not_or]
          exact ⟨by simp, hn⟩
    · rintro (⟨pre, post, he, hn⟩ | ⟨hmem, hn⟩)
      · cases pre with
        | nil =>
          simp only [List.nil_append, List.cons.injEq] at he
          obtain ⟨he1, he2⟩ := he
          injection he1 with hqq
          apply ihq.mpr
          refine Or.inr ⟨?_, ?_⟩
          · rw [hins, hqq]
            exact Finset.mem_insert_self _ _
          · rw [he2]
            exact hn
        | cons e pre2 =>
          simp only [List.cons_append, List.cons.injEq] at he
          exact ihq.mpr (Or.inl ⟨pre2, post, he.2, hn⟩)
      · apply ihq.mpr
        refine Or.inr ⟨by rw [hins]; exact Finset.mem_insert_of_mem hmem, ?_⟩
        simp only [List.mem_cons, not_or] at hn
        exact hn.2
  | rsvFail avail p pf evs0 hres htr ih =>
    intro hwf
    have ihq := ih hwf
    constructor
    · intro hq
      rcases ihq.mp hq with ⟨pre, post, he, hn⟩ | ⟨hmem, hn⟩
      · exact Or.inl ⟨.reserveFail :: pre, post, by rw [he, List.cons_append], hn⟩
      · refine Or.inr ⟨hmem, ?_⟩
        simp only [List.mem_cons, not_or]
        exact ⟨by simp, hn⟩
    · rintro (⟨pre, post, he, hn⟩ | ⟨hmem, hn⟩)
      · cases pre with
        | nil => simp at he
        | cons e pre2 =>
          simp only [List.cons_append, List.cons.injEq] at he
          exact ihq.mpr (Or.inl ⟨pre2, post, he.2, hn⟩)
      · refine ihq.mpr (Or.inr ⟨hmem, ?_⟩)
        simp only [List.mem_cons, not_or] at hn
        exact hn.2
  | rel p pf q0 evs0 htr ih =>
    intro hwf
    have hwfr : ∀ x ∈ (PortPool.release q0 p).used, 0 < x := by
      intro x hx
      rw [PortPool.release] at hx
      by_cases h0 : q0 = 0
      · rw [if_pos h0] at hx
        exact hwf x hx
      · rw [if_neg h0] at hx
        exact hwf x (Finset.mem_erase.mp hx).2
    have ihq := ih hwfr
    have hrelmem : q ∈ (PortPool.release q0 p).used ↔ (q ∈ p.used ∧ q ≠ q0) := by
      rw [PortPool.release]
      by_cases h0 : q0 = 0
      · rw [if_pos h0]
        constructor
        · intro hq
          refine ⟨hq, ?_⟩
          rw [h0]
          have := hwf q hq
          omega
        · exact And.left
      · rw [if_neg h0, Finset.mem_erase]
        exact ⟨fun a => ⟨a.2, a.1⟩, fun a => ⟨a.2, a.1⟩⟩
    constructor
    · intro hq
      rcases ihq.mp hq with ⟨pre, post, he, hn⟩ | ⟨hmem, hn⟩
      · exact Or.inl ⟨.released q0 :: pre, post, by rw [he, List.cons_append], hn⟩
      · obtain ⟨hmem2, hne⟩ := hrelmem.mp hmem
        refine Or.inr ⟨hmem2, ?_⟩
        simp only [List.mem_cons, not_or]
        refine ⟨?_, hn⟩
        intro hc
        injection hc with hc2
        exact hne hc2
    · rintro (⟨pre, post, he, hn⟩ | ⟨hmem, hn⟩)
      · cases pre with
        | nil => simp at he
        | cons e pre2 =>
          simp only [List.cons_append, List.cons.injEq] at he
          exact ihq.mpr (Or.inl ⟨pre2, post, he.2, hn⟩)
      · simp only [List.mem_cons, not_or] at hn
        refine ihq.mpr (Or.inr ⟨hrelmem.mpr ⟨hmem, ?_⟩, hn.2⟩)
        intro hqq
        exact hn.1 (by rw [hqq])

theorem poolTrace_append (e1 : List PEvent) (P Q : PortPool) (e2 : List PEvent)
    (h : PoolTrace P (e1 ++ e2) Q) : ∃ R, PoolTrace P e1 R ∧ PoolTrace R e2 Q := by
  induction e1 generalizing P with
  | nil => exact ⟨P, PoolTrace.nil P, h⟩
  | cons e t ih =>
    rw [List.cons_append] at h
    cases h with
    | rsv avail p q p2 pf evs hres htr =>
      obtain ⟨R, hR1, hR2⟩ := ih p2 htr
      exact ⟨R, PoolTrace.rsv avail P q p2 R t hres hR1, hR2⟩
    | rsvFail avail p pf evs hres htr =>
      obtain ⟨R, hR1, hR2⟩ := ih P htr
      exact ⟨R, PoolTrace.rsvFail avail P R t hres hR1, hR2⟩
    | rel p pf q evs htr =>
      obtain ⟨R, hR1, hR2⟩ := ih (PortPool.release q P) htr
      exact ⟨R, PoolTrace.rel P R q t hR1, hR2⟩

theorem poolTrace_double_reserve (P Q : PortPool) (evs pre mid post : List PEvent) (q : Int)
    (h : PoolTrace P evs Q)
    (he : evs = pre ++ (PEvent.reserved q :: (mid ++ PEvent.reserved q :: post))) :
    PEvent.released q ∈ mid := by
  by_contra hrel
  subst he
  obtain ⟨R1, _, hR⟩ := poolTrace_append pre P Q _ h
  cases hR with
  | rsv avail p q2 p2 pf evs hres htr =>
    have hq2 : q ∈ p2.used := by
      rw [(reserve_some _ _ _ _ hres).2.2]
      exact Finset.mem_insert_self _ _
    obtain ⟨R2, hmid, htail⟩ := poolTrace_append mid p2 Q _ htr
    have hq3 : q ∈ R2.used := poolTrace_persist _ _ _ hmid q hq2 hrel
    cases htail with
    | rsv avail2 p q3 p3 pf2 evs2 hres2 htr2 =>
      exact (reserve_some _ _ _ _ hres2).1 hq3

/-- CLAIM C7. Port-pool laws: a port is in the reserved set exactly when
some reserve call returned it and no later release of it occurred; two
reservations of the same port are separated by a release of it; release is
idempotent and a no-op on zero or unreserved ports; and any trace in which
every successful reserve is eventually matched by a release of its port
ends with an empty reserved set. -/
theorem C7_port_pool :
    (∀ (a b : Int) (evs : List PEvent) (Q : PortPool) (q : Int),
      PoolTrace (newPortPool a b) evs Q →
      (q ∈ Q.used ↔
        ∃ pre post, evs = pre ++ PEvent.reserved q :: post ∧ PEvent.released q ∉ post)) ∧
    (∀ (P Q : PortPool) (evs pre mid post : List PEvent) (q : Int),
      PoolTrace P evs Q →
      evs = pre ++ (PEvent.reserved q :: (mid ++ PEvent.reserved q :: post)) →
      PEvent.released q ∈ mid) ∧
    (∀ (p : PortPool) (q : Int),
      PortPool.release q (PortPool.release q p) = PortPool.release q p ∧
      PortPool.release 0 p = p ∧
      (q ∉ p.used → PortPool.release q p = p)) ∧
    (∀ (a b : Int) (evs : List PEvent) (Q : PortPool),
      PoolTrace (newPortPool a b) evs Q →
      (∀ pre q post, evs = pre ++ PEvent.reserved q :: post → PEvent.released q ∈ post) →
      Q.used = ∅) := by
  have hmem : ∀ (a b : Int) (evs : List PEvent) (Q : PortPool) (q : Int),
      PoolTrace (newPortPool a b) evs Q →
      (q ∈ Q.used ↔
        ∃ pre post, evs = pre ++ PEvent.reserved q :: post ∧ PEvent.released q ∉ post) := by
    intro a b evs Q q htr
    have := poolTrace_mem_iff (newPortPool a b) evs Q htr q
      (by intro x hx; simp [newPortPool] at hx)
    rw [this]
    constructor
    · rintro (hsplit | ⟨habs, _⟩)
      · exact hsplit
      · simp [newPortPool] at habs
    · exact Or.inl
  refine ⟨hmem, ?_, ?_, ?_⟩
  · intro P Q evs pre mid post q htr he
    exact poolTrace_double_reserve P Q evs pre mid post q htr he
  · intro p q
    refine ⟨?_, ?_, ?_⟩
    · rw [PortPool.release, PortPool.release]
      by_cases h0 : q = 0
      · rw [if_pos h0, if_pos h0]
      · rw [if_neg h0]
        simp only [if_neg h0]
        rw [Finset.erase_idem]
    · rw [PortPool.release, if_pos rfl]
    · intro hq
      rw [PortPool.release]
      by_cases h0 : q = 0
      · rw [if_pos h0]
      · rw [if_neg h0, Finset.erase_eq_of_not_mem hq]
  · intro a b evs Q htr hbal
    refine Finset.eq_empty_iff_forall_not_mem.mpr ?_
    intro x hx
    obtain ⟨pre, post, he, hn⟩ := (hmem a b evs Q x htr).mp hx
    exact hn (hbal pre x post he)

/-- Intermediate pool of the C7 witness trace: port 20000 reserved. -/
def c7Pool1 : PortPool := ⟨20000, 20001, {20000}⟩

/-- Witness for C7: reserving 20000 from a fresh two-port pool and
releasing it leaves the reserved set empty. -/
theorem C7_port_pool_witness : (PortPool.release 20000 c7Pool1).used = ∅ :=
  C7_port_pool.2.2.2 20000 20001 [.reserved 20000, .released 20000]
    (PortPool.release 20000 c7Pool1)
    (PoolTrace.rsv (fun _ => true) (newPortPool 20000 20001) 20000 c7Pool1
      (PortPool.release 20000 c7Pool1) [PEvent.released 20000] (by decide)
      (PoolTrace.rel c7Pool1 (PortPool.release 20000 c7Pool1) 20000 [] (PoolTrace.nil _)))
    (by
      intro pre q post he
      rcases pre with _ | ⟨e1, _ | ⟨e2, t⟩⟩
      · simp only [List.nil_append, List.cons.injEq] at he
        obtain ⟨he1, he2⟩ := he
        injection he1 with hq
        rw [← he2, hq]
        simp
      · simp at he
      · have := congrArg List.length he
        simp [List.length_append] at this)
